import Mathlib

/-!
Verification of the ezid-client-tools row-to-metadata engine.

This file shallowly embeds the core of `batch-register3.py` (mapping
loading, expression interpolation, the DataCite tree builder, the
per-row transformation loop, the ANVL encoder and the output-column
resolver) together with `ANVL.parse_anvl_str` from
`src/ezid_client_tools/utils.py`, and proves or refutes the frozen
claims about them.

Strings are modelled as `List Char`; Python exceptions are modelled
with `Except`.
-/

namespace EzidTools

/-- A Python string, modelled as a list of characters. -/
abbrev Str := List Char

/-- Python exception kinds that the modelled code can raise.  The
message payloads of the Python exceptions are not load-bearing for any
claim and are elided. -/
inductive Err where
  | indexError
  | typeError
  | assertionError
  deriving DecidableEq, Repr

/-! ## Python primitives: whitespace, strip, splitlines, indexing -/

/-- Characters for which Python's `str.isspace()` is true (the set
stripped by `str.strip()`). -/
def pyWs (c : Char) : Bool :=
  c ∈ ['\t', '\n', '\x0b', '\x0c', '\r', '\x1c', '\x1d', '\x1e', '\x1f',
       ' ', '\x85', '\xa0', ' ', ' ', ' ', ' ',
       ' ', ' ', ' ', ' ', ' ', ' ',
       ' ', ' ', ' ', ' ', ' ', ' ', '　']

/-- Python `str.strip()`: drop leading and trailing whitespace. -/
def pyStrip (s : Str) : Str :=
  ((s.dropWhile pyWs).reverse.dropWhile pyWs).reverse

/-- Line-boundary characters of Python's `str.splitlines()`
(`\r\n` is additionally treated as a single boundary). -/
def pyLineBreak (c : Char) : Bool :=
  c ∈ ['\n', '\r', '\x0b', '\x0c', '\x1c', '\x1d', '\x1e', '\x85',
       ' ', ' ']

/-- Worker for `pySplitlines`: `acc` holds the current line reversed. -/
def pySplitlinesAux (acc : Str) : Str → List Str
  | [] => if acc = [] then [] else [acc.reverse]
  | '\r' :: '\n' :: rest => acc.reverse :: pySplitlinesAux [] rest
  | c :: rest =>
      if pyLineBreak c then acc.reverse :: pySplitlinesAux [] rest
      else pySplitlinesAux (c :: acc) rest

/-- Python `str.splitlines()`. -/
def pySplitlines (s : Str) : List Str := pySplitlinesAux [] s

/-- Python sequence indexing `l[i]` with negative-index wrap-around;
out of range raises `IndexError`. -/
def pyIndex (l : List α) (i : Int) : Except Err α :=
  let j : Int := if i < 0 then (l.length : Int) + i else i
  if h : 0 ≤ j ∧ j < (l.length : Int) then
    .ok (l.get ⟨j.toNat, by omega⟩)
  else
    .error .indexError

/-! ## ANVL escaping (`to_anvl` in batch-register3.py, lines 199-216) -/

/-- Uppercase hexadecimal digit for `n < 16`. -/
def hexDigit (n : Nat) : Char :=
  if n < 10 then Char.ofNat ('0'.toNat + n)
  else Char.ofNat ('A'.toNat + (n - 10))

/-- The `"%%%02X" % ord(c)` replacement of `escape`; every escaped
character has a code point below 256, so two hex digits suffice. -/
def pctEscape (c : Char) : Str :=
  ['%', hexDigit (c.toNat / 16 % 16), hexDigit (c.toNat % 16)]

/-- The characters escaped by `escape`: `%`, CR and LF always, and
additionally `:` when `colon_too` is set. -/
def escapeSet (colonToo : Bool) (c : Char) : Bool :=
  c = '%' || c = '\r' || c = '\n' || (colonToo && c = ':')

/-- `escape` from `to_anvl`: percent-escape `%`, CR, LF (and `:` in
keys). -/
def escape (colonToo : Bool) (s : Str) : Str :=
  s.flatMap fun c => if escapeSet colonToo c then pctEscape c else [c]

/-- Lexicographic (code-point) comparison of Python strings. -/
def strLt : Str → Str → Bool
  | [], [] => false
  | [], _ :: _ => true
  | _ :: _, [] => false
  | a :: as_, b :: bs => a < b || (a = b && strLt as_ bs)

/-- Python tuple comparison on `(key, value)` pairs, as used by
`sorted(record.items())`. -/
def pairLe (p q : Str × Str) : Bool :=
  strLt p.1 q.1 || (p.1 = q.1 && (p.2 = q.2 || strLt p.2 q.2))

/-- Insert into a sorted list (stable). -/
def sortInsert (p : Str × Str) : List (Str × Str) → List (Str × Str)
  | [] => [p]
  | q :: rest => if pairLe p q then p :: q :: rest else q :: sortInsert p rest

/-- Python `sorted` on a list of string pairs. -/
def sortPairs : List (Str × Str) → List (Str × Str)
  | [] => []
  | p :: rest => sortInsert p (sortPairs rest)

/-- `to_anvl(record)` (batch-register3.py lines 199-216): render each
entry of the record, sorted by key, as `escapedKey: escapedValue\n`.
The record (a Python dict) is modelled as its association list. -/
def to_anvl (record : List (Str × Str)) : Str :=
  (sortPairs record).flatMap fun kv =>
    escape true kv.1 ++ [':', ' '] ++ escape false kv.2 ++ ['\n']

/-! ## ANVL decoding (`ANVL.parse_anvl_str`, utils.py lines 29-50) -/

/-- Hexadecimal digit test, `[0-9A-Fa-f]`. -/
def isHexD (c : Char) : Bool :=
  ('0' ≤ c && c ≤ '9') || ('A' ≤ c && c ≤ 'F') || ('a' ≤ c && c ≤ 'f')

/-- Value of a hexadecimal digit. -/
def hexVal (c : Char) : Nat :=
  if '0' ≤ c && c ≤ '9' then c.toNat - '0'.toNat
  else if 'A' ≤ c && c ≤ 'F' then c.toNat - 'A'.toNat + 10
  else c.toNat - 'a'.toNat + 10

/-- `ANVL.unescape_anvl`: replace every `%HH` (leftmost,
non-overlapping, as `re.sub` does) by the character `chr(0xHH)`. -/
def unescape_anvl : Str → Str
  | [] => []
  | '%' :: h1 :: h2 :: rest =>
      if isHexD h1 && isHexD h2 then
        Char.ofNat (16 * hexVal h1 + hexVal h2) :: unescape_anvl rest
      else '%' :: unescape_anvl (h1 :: h2 :: rest)
  | c :: rest => c :: unescape_anvl rest

/-- Python `str.split(sep, maxsplit=1)` at the first occurrence of
`sep`; `none` when `sep` does not occur. -/
def splitFirst (sep : Char) : Str → Option (Str × Str)
  | [] => none
  | c :: rest =>
      if c = sep then some ([], rest)
      else (splitFirst sep rest).map fun p => (c :: p.1, p.2)

/-- `LastUpdatedOrderedDict.__setitem__`: delete any existing entry for
the key, then append the new binding at the end. -/
def luInsert (m : List (Str × Str)) (k v : Str) : List (Str × Str) :=
  m.filter (fun p => p.1 ≠ k) ++ [(k, v)]

/-- One line of `ANVL.parse_anvl_str`'s loop: if the line contains a
`:`, split at the first one, strip, unescape and strip both sides, and
record the binding when both are non-empty. -/
def parseAnvlLine (m : List (Str × Str)) (line : Str) : List (Str × Str) :=
  match splitFirst ':' line with
  | none => m
  | some (rawK, rawV) =>
      let key := pyStrip (unescape_anvl (pyStrip rawK))
      let value := pyStrip (unescape_anvl (pyStrip rawV))
      if key ≠ [] ∧ value ≠ [] then luInsert m key value else m

/-- `ANVL.parse_anvl_str` (utils.py lines 29-43): parse an ANVL string
into an ordered dictionary, modelled as an association list. -/
def parse_anvl_str (anvl : Str) : List (Str × Str) :=
  (pySplitlines anvl).foldl parseAnvlLine []

/-! ## Lemmas about the ANVL codec -/

/-- Edge test: a string neither starts nor ends with Python whitespace. -/
def noWsEdge (s : Str) : Bool :=
  !(s.head?.elim false pyWs) && !(s.getLast?.elim false pyWs)

/-- Character test: every line-boundary character of the string is CR
or LF (and hence gets percent-escaped by `escape`). -/
def tameBreaks (s : Str) : Bool :=
  s.all fun c => c = '\r' || c = '\n' || !pyLineBreak c

theorem unescape_cons_ne {c : Char} (l : Str) (h : c ≠ '%') :
    unescape_anvl (c :: l) = c :: unescape_anvl l := by
  rw [unescape_anvl.eq_def]
  split
  · simp_all
  · simp_all
  · rename_i heq
    injection heq with hc hl
    rw [hc, hl]

theorem unescape_hex {h1 h2 : Char} (l : Str)
    (e1 : isHexD h1 = true) (e2 : isHexD h2 = true) :
    unescape_anvl ('%' :: h1 :: h2 :: l) =
      Char.ofNat (16 * hexVal h1 + hexVal h2) :: unescape_anvl l := by
  rw [unescape_anvl.eq_def]
  simp [e1, e2]

theorem escapeSet_cases {b : Bool} {c : Char} (h : escapeSet b c = true) :
    c = '%' ∨ c = '\r' ∨ c = '\n' ∨ c = ':' := by
  simp only [escapeSet, Bool.or_eq_true, Bool.and_eq_true, decide_eq_true_eq] at h
  tauto

/-- Unescaping inverts escaping: every `%` of the original is itself
escaped, so each `%HH` group of the escaped text decodes to exactly the
character that produced it. -/
theorem unescape_escape (b : Bool) (s : Str) :
    unescape_anvl (escape b s) = s := by
  induction s with
  | nil => rfl
  | cons c t ih =>
    show unescape_anvl ((if escapeSet b c then pctEscape c else [c]) ++ escape b t) = c :: t
    by_cases h : escapeSet b c = true
    · rw [if_pos h]
      rcases escapeSet_cases h with rfl | rfl | rfl | rfl <;>
        · show unescape_anvl ('%' :: _ :: _ :: escape b t) = _
          rw [unescape_hex (escape b t) (by decide) (by decide), ih]
          exact congrArg (fun x => x :: t) (by decide)
    · rw [if_neg h]
      have hc : c ≠ '%' := by
        rintro rfl; exact h (by simp [escapeSet])
      show unescape_anvl (c :: escape b t) = c :: t
      rw [unescape_cons_ne _ hc, ih]

theorem hexDigit_not_ws {n : Nat} (h : n < 16) : pyWs (hexDigit n) = false := by
  revert h; revert n; decide

theorem hexDigit_not_break {n : Nat} (h : n < 16) :
    pyLineBreak (hexDigit n) = false := by
  revert h; revert n; decide

theorem hexDigit_ne_colon {n : Nat} (h : n < 16) : hexDigit n ≠ ':' := by
  revert h; revert n; decide

theorem mem_pctEscape {c d : Char} (h : d ∈ pctEscape c) :
    d = '%' ∨ ∃ n, n < 16 ∧ d = hexDigit n := by
  simp only [pctEscape, List.mem_cons, List.not_mem_nil, or_false] at h
  rcases h with rfl | rfl | rfl
  · exact Or.inl rfl
  · exact Or.inr ⟨c.toNat / 16 % 16, Nat.mod_lt _ (by norm_num), rfl⟩
  · exact Or.inr ⟨c.toNat % 16, Nat.mod_lt _ (by norm_num), rfl⟩

/-- Characters of an escaped string are never line boundaries, provided
the source string's only line-boundary characters are CR and LF. -/
theorem escape_no_break {b : Bool} {s : Str} (hs : tameBreaks s = true)
    {d : Char} (hd : d ∈ escape b s) : pyLineBreak d = false := by
  simp only [escape, List.mem_flatMap] at hd
  obtain ⟨c, hc, hdc⟩ := hd
  by_cases he : escapeSet b c = true
  · rw [if_pos he] at hdc
    rcases mem_pctEscape hdc with rfl | ⟨n, hn, rfl⟩
    · decide
    · exact hexDigit_not_break hn
  · rw [if_neg he] at hdc
    simp only [List.mem_cons, List.not_mem_nil, or_false] at hdc
    subst hdc
    have ht := List.all_eq_true.mp hs d hc
    simp only [Bool.or_eq_true, decide_eq_true_eq, Bool.not_eq_true'] at ht
    rcases ht with (rfl | rfl) | h
    · exact absurd (by simp [escapeSet]) he
    · exact absurd (by simp [escapeSet]) he
    · exact h

theorem colon_not_mem_escape {s : Str} (hd : ':' ∈ escape true s) : False := by
  simp only [escape, List.mem_flatMap] at hd
  obtain ⟨c, _, hdc⟩ := hd
  by_cases he : escapeSet true c = true
  · rw [if_pos he] at hdc
    rcases mem_pctEscape hdc with h | ⟨n, hn, h⟩
    · exact absurd h (by decide)
    · exact hexDigit_ne_colon hn h.symm
  · rw [if_neg he] at hdc
    simp only [List.mem_cons, List.not_mem_nil, or_false] at hdc
    exact he (hdc ▸ (by decide : escapeSet true ':' = true))

theorem escape_ne_nil {b : Bool} {s : Str} (h : s ≠ []) : escape b s ≠ [] := by
  cases s with
  | nil => exact absurd rfl h
  | cons c t =>
    show (if escapeSet b c then pctEscape c else [c]) ++ escape b t ≠ []
    intro hc
    rcases List.append_eq_nil.mp hc with ⟨h1, -⟩
    by_cases he : escapeSet b c = true <;> simp [he, pctEscape] at h1

/-- Escaping never introduces whitespace at either end of a string. -/
theorem noWsEdge_escape {b : Bool} {s : Str} (h : noWsEdge s = true) :
    noWsEdge (escape b s) = true := by
  simp only [noWsEdge, Bool.and_eq_true, Bool.not_eq_true'] at h ⊢
  obtain ⟨hh, hl⟩ := h
  constructor
  · cases s with
    | nil => exact hh
    | cons c t =>
      show ((if escapeSet b c then pctEscape c else [c]) ++ escape b t).head?.elim false pyWs = false
      by_cases he : escapeSet b c = true
      · rw [if_pos he]; rfl
      · rw [if_neg he]
        show ((c :: escape b t).head?.elim false pyWs) = false
        exact hh
  · rcases List.eq_nil_or_concat s with rfl | ⟨t, c, rfl⟩
    · exact hl
    · rw [List.concat_eq_append] at hl ⊢
      rw [show escape b (t ++ [c]) = escape b t ++ escape b [c] from
        List.flatMap_append t [c] _]
      rw [List.getLast?_append_of_ne_nil _ (escape_ne_nil (by simp))]
      rw [List.getLast?_concat] at hl
      show (escape b [c]).getLast?.elim false pyWs = false
      by_cases he : escapeSet b c = true
      · show ((if escapeSet b c then pctEscape c else [c]) ++ []).getLast?.elim false pyWs = false
        rw [if_pos he]
        simp only [List.append_nil, pctEscape]
        rw [show ['%', hexDigit (c.toNat / 16 % 16), hexDigit (c.toNat % 16)] =
          ['%', hexDigit (c.toNat / 16 % 16)] ++ [hexDigit (c.toNat % 16)] from rfl]
        rw [List.getLast?_concat]
        exact hexDigit_not_ws (Nat.mod_lt _ (by norm_num))
      · show ((if escapeSet b c then pctEscape c else [c]) ++ []).getLast?.elim false pyWs = false
        rw [if_neg he]
        simpa using hl

theorem pyStrip_eq_self_of_noWsEdge {s : Str} (h : noWsEdge s = true) :
    pyStrip s = s := by
  simp only [noWsEdge, Bool.and_eq_true, Bool.not_eq_true'] at h
  obtain ⟨hh, hl⟩ := h
  have h1 : s.dropWhile pyWs = s := by
    cases s with
    | nil => rfl
    | cons c t =>
      rw [List.dropWhile_cons, if_neg]
      simp only [Option.elim, List.head?] at hh
      simp [hh]
  have h2 : s.reverse.dropWhile pyWs = s.reverse := by
    cases hr : s.reverse with
    | nil => rfl
    | cons c t =>
      rw [List.dropWhile_cons, if_neg]
      have : s.reverse.head? = some c := by rw [hr]; rfl
      rw [List.head?_reverse] at this
      simp only [this, Option.elim] at hl
      simp [hl]
  rw [pyStrip, h1, h2, List.reverse_reverse]

theorem pyStrip_cons_ws {c : Char} {s : Str} (h : pyWs c = true) :
    pyStrip (c :: s) = pyStrip s := by
  rw [pyStrip, pyStrip, List.dropWhile_cons, if_pos h]

/-! ### Splitting the encoded text back into lines -/

theorem pySplitlinesAux_cons {c : Char} {acc t : Str}
    (h : pyLineBreak c = false) :
    pySplitlinesAux acc (c :: t) = pySplitlinesAux (c :: acc) t := by
  rw [pySplitlinesAux.eq_def]
  split
  · simp_all
  · rename_i heq
    injection heq with hc _
    exact absurd (hc ▸ h) (by decide)
  · rename_i hne heq
    injection heq with hc hl
    subst hc; subst hl
    rw [if_neg (by simp [h])]

theorem pySplitlinesAux_nl {acc t : Str} :
    pySplitlinesAux acc ('\n' :: t) = acc.reverse :: pySplitlinesAux [] t := by
  rw [pySplitlinesAux.eq_def]
  split
  · simp_all
  · rename_i heq
    injection heq with hc _
    exact absurd hc (by decide)
  · rename_i hne heq
    injection heq with hc hl
    subst hc; subst hl
    rw [if_pos (by decide)]

/-- A line free of boundary characters followed by `\n` splits off as
one line. -/
theorem pySplitlinesAux_line {line : Str}
    (hline : ∀ c ∈ line, pyLineBreak c = false) (acc rest : Str) :
    pySplitlinesAux acc (line ++ '\n' :: rest) =
      (acc.reverse ++ line) :: pySplitlinesAux [] rest := by
  induction line generalizing acc with
  | nil => simpa using pySplitlinesAux_nl
  | cons c t ih =>
    rw [List.cons_append, pySplitlinesAux_cons (hline c (by simp))]
    rw [ih (fun d hd => hline d (by simp [hd]))]
    simp

theorem pySplitlines_line {line rest : Str}
    (hline : ∀ c ∈ line, pyLineBreak c = false) :
    pySplitlines (line ++ '\n' :: rest) = line :: pySplitlines rest := by
  rw [pySplitlines, pySplitlinesAux_line hline]
  rfl

theorem splitFirst_of_not_mem {k rest : Str} (h : ':' ∉ k) :
    splitFirst ':' (k ++ ':' :: rest) = some (k, rest) := by
  induction k with
  | nil => rw [List.nil_append]; simp [splitFirst]
  | cons c t ih =>
    have hc : c ≠ ':' := fun hc => h (by simp [hc])
    rw [List.cons_append, splitFirst, if_neg hc, ih (fun hm => h (by simp [hm]))]
    rfl

/-- The encoded line of one record entry, without its trailing `\n`. -/
def encodedLine (kv : Str × Str) : Str :=
  escape true kv.1 ++ ':' :: ' ' :: escape false kv.2

theorem encodedLine_no_break {kv : Str × Str}
    (hk : tameBreaks kv.1 = true) (hv : tameBreaks kv.2 = true) :
    ∀ c ∈ encodedLine kv, pyLineBreak c = false := by
  intro c hc
  simp only [encodedLine, List.mem_append, List.mem_cons] at hc
  rcases hc with h | rfl | rfl | h
  · exact escape_no_break hk h
  · decide
  · decide
  · exact escape_no_break hv h

/-- Decoding one encoded line appends exactly the original binding. -/
theorem parseAnvlLine_encoded {k v : Str} (acc : List (Str × Str))
    (hk : k ≠ []) (hv : v ≠ [])
    (hke : noWsEdge k = true) (hve : noWsEdge v = true)
    (hfresh : ∀ p ∈ acc, p.1 ≠ k) :
    parseAnvlLine acc (encodedLine (k, v)) = acc ++ [(k, v)] := by
  have hsp : splitFirst ':' (escape true k ++ ':' :: (' ' :: escape false v)) =
      some (escape true k, ' ' :: escape false v) :=
    splitFirst_of_not_mem (fun h => colon_not_mem_escape h)
  simp only [parseAnvlLine, encodedLine, hsp]
  have hkeyc : pyStrip (unescape_anvl (pyStrip (escape true k))) = k := by
    rw [pyStrip_eq_self_of_noWsEdge (noWsEdge_escape hke), unescape_escape,
      pyStrip_eq_self_of_noWsEdge hke]
  have hvalc : pyStrip (unescape_anvl (pyStrip (' ' :: escape false v))) = v := by
    rw [pyStrip_cons_ws (by decide), pyStrip_eq_self_of_noWsEdge (noWsEdge_escape hve),
      unescape_escape, pyStrip_eq_self_of_noWsEdge hve]
  rw [hkeyc, hvalc, if_pos ⟨hk, hv⟩, luInsert,
    List.filter_eq_self.mpr (fun p hp => decide_eq_true (hfresh p hp))]

/-- Folding the decoder over freshly keyed encoded lines appends the
original entries in order. -/
theorem foldl_parse_encoded (m acc : List (Str × Str))
    (hgood : ∀ kv ∈ m, kv.1 ≠ [] ∧ kv.2 ≠ [] ∧
      noWsEdge kv.1 = true ∧ noWsEdge kv.2 = true)
    (hdis : m.Pairwise (fun a b => a.1 ≠ b.1))
    (hfresh : ∀ p ∈ acc, ∀ q ∈ m, p.1 ≠ q.1) :
    (m.map encodedLine).foldl parseAnvlLine acc = acc ++ m := by
  induction m generalizing acc with
  | nil => simp
  | cons kv rest ih =>
    obtain ⟨k, v⟩ := kv
    obtain ⟨hk, hv, hke, hve⟩ := hgood (k, v) (by simp)
    rw [List.map_cons, List.foldl_cons,
      parseAnvlLine_encoded acc hk hv hke hve
        (fun p hp => hfresh p hp (k, v) (by simp))]
    have hfresh' : ∀ p ∈ acc ++ [(k, v)], ∀ q ∈ rest, p.1 ≠ q.1 := by
      intro p hp q hq
      rcases List.mem_append.mp hp with h | h
      · exact hfresh p h q (by simp [hq])
      · simp only [List.mem_singleton] at h
        subst h
        exact List.rel_of_pairwise_cons hdis hq
    rw [ih (acc ++ [(k, v)]) (fun q hq => hgood q (by simp [hq]))
      hdis.of_cons hfresh']
    simp

theorem strLt_irrefl (s : Str) : strLt s s = false := by
  induction s with
  | nil => rfl
  | cons c t ih => simp [strLt, ih]

theorem sortPairs_eq_self {m : List (Str × Str)}
    (h : m.Pairwise (fun a b => strLt a.1 b.1 = true)) : sortPairs m = m := by
  induction m with
  | nil => rfl
  | cons p rest ih =>
    rw [sortPairs, ih h.of_cons]
    cases rest with
    | nil => rfl
    | cons q t =>
      rw [sortInsert, if_pos]
      simp only [pairLe, Bool.or_eq_true]
      exact Or.inl (List.rel_of_pairwise_cons h (by simp))

theorem pySplitlines_encoded (m : List (Str × Str))
    (hgood : ∀ kv ∈ m, tameBreaks kv.1 = true ∧ tameBreaks kv.2 = true) :
    pySplitlines (m.flatMap fun kv => encodedLine kv ++ ['\n']) =
      m.map encodedLine := by
  induction m with
  | nil => rfl
  | cons kv rest ih =>
    rw [List.flatMap_cons, List.append_assoc, List.singleton_append,
      pySplitlines_line (encodedLine_no_break (hgood kv (by simp)).1
        (hgood kv (by simp)).2),
      ih (fun q hq => hgood q (by simp [hq])), List.map_cons]

/-- Safety condition of the amended round-trip claim: non-empty, no
leading or trailing whitespace, and no line-boundary characters other
than CR and LF. -/
def anvlSafe (s : Str) : Bool :=
  !s.isEmpty && noWsEdge s && tameBreaks s

theorem anvlSafe_spec {s : Str} (h : anvlSafe s = true) :
    s ≠ [] ∧ noWsEdge s = true ∧ tameBreaks s = true := by
  simp only [anvlSafe, Bool.and_eq_true, Bool.not_eq_true'] at h
  exact ⟨by simpa [List.isEmpty_iff] using h.1.1, h.1.2, h.2⟩

/-- C1 (counterexample): the round trip fails as soon as a value
carries leading whitespace, although the record has no empty keys or
values: `{"k": " v"}` decodes back to `{"k": "v"}` because
`parse_anvl_str` strips both sides of every binding. -/
theorem c1_roundtrip_counterexample :
    (∀ kv ∈ [((['k'] : Str), ([' ', 'v'] : Str))], kv.1 ≠ [] ∧ kv.2 ≠ []) ∧
    parse_anvl_str (to_anvl [((['k'] : Str), ([' ', 'v'] : Str))]) ≠
      [((['k'] : Str), ([' ', 'v'] : Str))] := by
  decide

/-- C1 (amended): decoding inverts encoding for every record, sorted by
key, whose keys and values are non-empty, free of leading/trailing
whitespace, and contain no line-boundary characters besides CR and LF;
in particular `:`, `%` and embedded newlines are allowed anywhere. -/
theorem c1_anvl_roundtrip (m : List (Str × Str))
    (hsort : m.Pairwise (fun a b => strLt a.1 b.1 = true))
    (hsafe : ∀ kv ∈ m, anvlSafe kv.1 = true ∧ anvlSafe kv.2 = true) :
    parse_anvl_str (to_anvl m) = m := by
  have hdis : m.Pairwise (fun a b => a.1 ≠ b.1) := by
    refine hsort.imp fun {a b} hab hfalse => ?_
    rw [hfalse] at hab
    exact absurd hab (by simp [strLt_irrefl])
  rw [parse_anvl_str, to_anvl, sortPairs_eq_self hsort]
  rw [show (m.flatMap fun kv =>
      escape true kv.1 ++ [':', ' '] ++ escape false kv.2 ++ ['\n']) =
      m.flatMap fun kv => encodedLine kv ++ ['\n'] by
    apply List.flatMap_congr
    simp [encodedLine]]
  rw [pySplitlines_encoded m
    (fun kv hkv => ⟨((anvlSafe_spec (hsafe kv hkv).1).2.2),
      ((anvlSafe_spec (hsafe kv hkv).2).2.2)⟩)]
  rw [foldl_parse_encoded m []
    (fun kv hkv => ⟨(anvlSafe_spec (hsafe kv hkv).1).1,
      (anvlSafe_spec (hsafe kv hkv).2).1,
      (anvlSafe_spec (hsafe kv hkv).1).2.1,
      (anvlSafe_spec (hsafe kv hkv).2).2.1⟩)
    hdis (by simp)]
  rfl

/-- C1 (witness): the amended round trip at a concrete record whose key
and value both contain `:`, `%` and an embedded newline. -/
theorem c1_anvl_roundtrip_witness :
    parse_anvl_str (to_anvl [("a:b%c\nd".toList, "v:1%2\n3".toList)]) =
      [("a:b%c\nd".toList, "v:1%2\n3".toList)] :=
  c1_anvl_roundtrip _ (by simp) (by decide)

/-! ## Expression interpolation (`interpolate`, batch-register3.py lines 60-97) -/

/-- Values a user-supplied registry function can return: a Python
string, a list of `(relative-path, value)` tuples (encoded as a
`vnil`/`vcons` chain so that all recursion over it is structural), or
one bare such tuple. -/
inductive PyVal where
  | vstr (s : Str)
  | vnil
  | vcons (relpath : Str) (v : PyVal) (rest : PyVal)
  | vtup (relpath : Str) (v : PyVal)

/-- The `functions` module: a name-indexed registry of user-supplied
functions; `none` models a missing attribute, `.error ()` a function
that raises. -/
abbrev Registry := Str → Option (List Str → Except Unit PyVal)

/-- `[a-zA-Z_]`, the characters of a function name. -/
def isFuncChar (c : Char) : Bool :=
  ('a' ≤ c && c ≤ 'z') || ('A' ≤ c && c ≤ 'Z') || c = '_'

/-- Python `int()` on a non-empty string of decimal digits. -/
def strToNat (s : Str) : Nat :=
  s.foldl (fun acc c => 10 * acc + (c.toNat - '0'.toNat)) 0

/-- One match of the placeholder pattern
`\$[0-9]+|\$\{[0-9]+\}|\$\{[0-9]+:[a-zA-Z_]+\}|\$\$`. -/
inductive PMatch where
  | dollarN (ds : Str)
  | braceN (ds : Str)
  | funcCall (ds : Str) (name : Str)
  | dollars
  deriving DecidableEq, Repr

/-- The exact text a match consumed (`match.group(0)`). -/
def matchText : PMatch → Str
  | .dollarN ds => '$' :: ds
  | .braceN ds => '$' :: '{' :: (ds ++ ['}'])
  | .funcCall ds nm => '$' :: '{' :: (ds ++ ':' :: nm ++ ['}'])
  | .dollars => ['$', '$']

/-- A piece of the scanned expression: literal character or match. -/
inductive Piece where
  | lit (c : Char)
  | mat (m : PMatch)
  deriving DecidableEq, Repr

theorem length_dropWhile_le (p : α → Bool) (l : List α) :
    (l.dropWhile p).length ≤ l.length := by
  induction l with
  | nil => simp
  | cons c t ih =>
    rw [List.dropWhile_cons]
    split
    · exact Nat.le_succ_of_le ih
    · exact Nat.le_refl _

/-- Left-to-right, leftmost-first scan of the expression against the
four alternatives of the placeholder regex, exactly in the pattern's
order; at a position with no match the character is kept literally and
scanning resumes at the next position, as `re.sub` does.  The `fuel`
argument only bounds the recursion depth: every recursive call
consumes at least one character, so the fuel `s.length` used by
`scanExpr` never runs out. -/
def scanExprF : Nat → Str → List Piece
  | _, [] => []
  | 0, _ => []
  | fuel + 1, c :: rest =>
    if c = '$' then
      match rest with
      | [] => [.lit '$']
      | d :: r2 =>
        if d.isDigit then
          .mat (.dollarN (rest.takeWhile Char.isDigit)) ::
            scanExprF fuel (rest.dropWhile Char.isDigit)
        else if d = '{' then
          let ds := r2.takeWhile Char.isDigit
          if ds.isEmpty then .lit '$' :: scanExprF fuel rest
          else
            match r2.dropWhile Char.isDigit with
            | '}' :: r4 => .mat (.braceN ds) :: scanExprF fuel r4
            | ':' :: r5 =>
              let nm := r5.takeWhile isFuncChar
              if nm.isEmpty then .lit '$' :: scanExprF fuel rest
              else
                match r5.dropWhile isFuncChar with
                | '}' :: r7 => .mat (.funcCall ds nm) :: scanExprF fuel r7
                | _ => .lit '$' :: scanExprF fuel rest
            | _ => .lit '$' :: scanExprF fuel rest
        else if d = '$' then .mat .dollars :: scanExprF fuel r2
        else .lit '$' :: scanExprF fuel rest
    else .lit c :: scanExprF fuel rest

/-- Scan an expression for placeholder matches. -/
def scanExpr (s : Str) : List Piece := scanExprF s.length s

/-- What `replace_match` hands back to `re.sub` for one match: a
string, a structured (non-string) object, or Python `None` (the code
path that falls off the end of the function). -/
inductive Repl where
  | rstr (s : Str)
  | robj (v : PyVal)
  | rnone

/-- `replace_match` (batch-register3.py lines 72-94).  For `$N` and
`${N}` the row is indexed directly (an out-of-range index raises
`IndexError`, uncaught).  For `${N:name}` the regex admits a single
index, so `parts[0].split(',')` is the one-element list `[N]`; the
argument lookup happens before the `try`, the function lookup and call
inside it, and any exception there becomes the `assert False` message.
A non-string result is handed to `re.sub` only when the match is the
whole expression; otherwise the function returns `None`. -/
def replace_match (reg : Registry) (row : List Str) (expression : Str) :
    PMatch → Except Err Repl
  | .dollars => .ok (.rstr ['$'])
  | .dollarN ds => do
    let c ← pyIndex row ((strToNat ds : Int) - 1)
    .ok (.rstr c)
  | .braceN ds => do
    let c ← pyIndex row ((strToNat ds : Int) - 1)
    .ok (.rstr c)
  | .funcCall ds nm => do
    let arg ← pyIndex row ((strToNat ds : Int) - 1)
    match reg nm with
    | none => .error .assertionError
    | some f =>
      match f [arg] with
      | .error _ => .error .assertionError
      | .ok (.vstr s) => .ok (.rstr s)
      | .ok v =>
        if matchText (.funcCall ds nm) = expression then .ok (.robj v)
        else .ok .rnone

/-- Run `replace_match` over every match, left to right; the first
exception aborts, as it does inside `re.sub`. -/
def subPieces (reg : Registry) (row : List Str) (expression : Str) :
    List Piece → Except Err (List Repl)
  | [] => .ok []
  | .lit c :: rest => (subPieces reg row expression rest).map (.rstr [c] :: ·)
  | .mat m :: rest => do
    let r ← replace_match reg row expression m
    let t ← subPieces reg row expression rest
    .ok (r :: t)

/-- The final join inside `re.sub`: every piece must be a string,
otherwise Python raises `TypeError`. -/
def joinRepls : List Repl → Except Err Str
  | [] => .ok []
  | .rstr s :: rest => (joinRepls rest).map (s ++ ·)
  | .robj _ :: _ => .error .typeError
  | .rnone :: _ => .error .typeError

/-- `interpolate(expression, row)` (batch-register3.py lines 60-97),
with the ambient `functions` module made an explicit registry
argument.  The result of the substitution is stripped. -/
def interpolate (reg : Registry) (expression : Str) (row : List Str) :
    Except Err Str := do
  let repls ← subPieces reg row expression (scanExpr expression)
  let s ← joinRepls repls
  .ok (pyStrip s)

/-! ## Lemmas about the interpolator -/

theorem takeWhile_eq_self {p : α → Bool} {l : List α}
    (h : ∀ c ∈ l, p c = true) : l.takeWhile p = l := by
  induction l with
  | nil => rfl
  | cons c t ih =>
    rw [List.takeWhile_cons, if_pos (h c (by simp)), ih fun d hd => h d (by simp [hd])]

theorem dropWhile_eq_nil {p : α → Bool} {l : List α}
    (h : ∀ c ∈ l, p c = true) : l.dropWhile p = [] := by
  induction l with
  | nil => rfl
  | cons c t ih =>
    rw [List.dropWhile_cons, if_pos (h c (by simp)), ih fun d hd => h d (by simp [hd])]

theorem takeWhile_append_stop {p : α → Bool} {l t : List α} {x : α}
    (h : ∀ c ∈ l, p c = true) (hx : p x = false) :
    (l ++ x :: t).takeWhile p = l ∧ (l ++ x :: t).dropWhile p = x :: t := by
  induction l with
  | nil => simp [List.takeWhile_cons, List.dropWhile_cons, hx]
  | cons c r ih =>
    obtain ⟨ih1, ih2⟩ := ih fun d hd => h d (by simp [hd])
    constructor
    · rw [List.cons_append, List.takeWhile_cons, if_pos (h c (by simp)), ih1]
    · rw [List.cons_append, List.dropWhile_cons, if_pos (h c (by simp)), ih2]

/-- Decimal rendering of a natural number; the fuel argument only
bounds the recursion depth (`n` divisions by ten always suffice). -/
def natToStrF : Nat → Nat → Str
  | 0, _ => []
  | fuel + 1, n =>
    if n < 10 then [Char.ofNat ('0'.toNat + n)]
    else natToStrF fuel (n / 10) ++ [Char.ofNat ('0'.toNat + n % 10)]

/-- The decimal digit string of `n`, as `str(n)` renders it. -/
def natToStr (n : Nat) : Str := natToStrF (n + 1) n

theorem digitChar_isDigit {n : Nat} (h : n < 10) :
    (Char.ofNat ('0'.toNat + n)).isDigit = true := by
  revert h; revert n; decide

theorem digitChar_toNat {n : Nat} (h : n < 10) :
    (Char.ofNat ('0'.toNat + n)).toNat = '0'.toNat + n := by
  revert h; revert n; decide

theorem natToStrF_spec : ∀ {fuel n : Nat}, n + 1 ≤ fuel →
    natToStrF fuel n ≠ [] ∧ (∀ c ∈ natToStrF fuel n, c.isDigit = true) ∧
      strToNat (natToStrF fuel n) = n := by
  intro fuel
  induction fuel with
  | zero => intro n h; omega
  | succ f ih =>
    intro n h
    by_cases h10 : n < 10
    · refine ⟨by simp [natToStrF, h10], ?_, ?_⟩
      · intro c hc
        simp only [natToStrF, if_pos h10, List.mem_singleton] at hc
        exact hc ▸ digitChar_isDigit h10
      · simp only [natToStrF, if_pos h10, strToNat, List.foldl_cons, List.foldl_nil]
        rw [digitChar_toNat h10]
        omega
    · have hdiv : n / 10 + 1 ≤ f := by omega
      obtain ⟨ih1, ih2, ih3⟩ := ih hdiv
      simp only [natToStrF, if_neg h10]
      refine ⟨by simp, ?_, ?_⟩
      · intro c hc
        rcases List.mem_append.mp hc with hm | hm
        · exact ih2 c hm
        · simp only [List.mem_singleton] at hm
          exact hm ▸ digitChar_isDigit (Nat.mod_lt _ (by norm_num))
      · show strToNat (natToStrF f (n / 10) ++ [Char.ofNat ('0'.toNat + n % 10)]) = n
        rw [strToNat, List.foldl_append]
        show (10 * strToNat (natToStrF f (n / 10)) +
          ((Char.ofNat ('0'.toNat + n % 10)).toNat - '0'.toNat)) = n
        rw [ih3, digitChar_toNat (Nat.mod_lt _ (by norm_num))]
        omega

theorem natToStr_ne_nil (n : Nat) : natToStr n ≠ [] :=
  (natToStrF_spec (Nat.le_refl _)).1

theorem natToStr_digits (n : Nat) : ∀ c ∈ natToStr n, c.isDigit = true :=
  (natToStrF_spec (Nat.le_refl _)).2.1

theorem strToNat_natToStr (n : Nat) : strToNat (natToStr n) = n :=
  (natToStrF_spec (Nat.le_refl _)).2.2

/-- A lone `$N` placeholder scans to a single `dollarN` match. -/
theorem scanExpr_dollarN {ds : Str} (hne : ds ≠ [])
    (hd : ∀ c ∈ ds, c.isDigit = true) :
    scanExpr ('$' :: ds) = [.mat (.dollarN ds)] := by
  match ds, hne with
  | d :: r2, _ =>
    show scanExprF (r2.length + 1 + 1) ('$' :: d :: r2) = _
    simp only [scanExprF, if_pos rfl, if_pos (hd d (by simp))]
    rw [takeWhile_eq_self hd, dropWhile_eq_nil hd]
    rfl

/-- A lone `${N}` placeholder scans to a single `braceN` match. -/
theorem scanExpr_braceN {ds : Str} (hne : ds ≠ [])
    (hd : ∀ c ∈ ds, c.isDigit = true) :
    scanExpr ('$' :: '{' :: ds ++ ['}']) = [.mat (.braceN ds)] := by
  obtain ⟨t1, t2⟩ := @takeWhile_append_stop Char Char.isDigit ds [] '}' hd
    (by decide : Char.isDigit '}' = false)
  show scanExprF ((ds ++ ['}']).length + 1 + 1) ('$' :: '{' :: (ds ++ ['}'])) = _
  simp only [scanExprF, t1, t2]
  simp [List.isEmpty_iff, hne]

theorem pyIndex_get? {l : List α} {n : Nat} {c : α} (h : l.get? n = some c) :
    pyIndex l (n : Int) = .ok c := by
  obtain ⟨hlt, hget⟩ := List.get?_eq_some.mp h
  rw [pyIndex]
  simp only [show ¬((n : Int) < 0) from by omega, if_false]
  rw [dif_pos ⟨by omega, by omega⟩]
  simpa using hget

theorem pyIndex_oob {l : List α} {N : Nat} (h : l.length < N) :
    pyIndex l ((N : Int) - 1) = .error .indexError := by
  rw [pyIndex]
  simp only [show ¬((N : Int) - 1 < 0) from by omega, if_false]
  rw [dif_neg (by omega)]

theorem pyIndex_neg_one {l : List α} {c : α} (h : l.getLast? = some c) :
    pyIndex l (-1) = .ok c := by
  have hne : l ≠ [] := by rintro rfl; simp at h
  have hlen : 1 ≤ l.length := by
    cases l with
    | nil => exact absurd rfl hne
    | cons x t => simp
  rw [List.getLast?_eq_getElem?, List.getElem?_eq_some] at h
  obtain ⟨hlt, hget⟩ := h
  rw [pyIndex]
  simp only [show (-1 : Int) < 0 from by omega, if_true]
  rw [dif_pos ⟨by omega, by omega⟩]
  refine congrArg Except.ok ?_
  have hidx : ((l.length : Int) + -1).toNat = l.length - 1 := by omega
  rw [List.get_eq_getElem]
  simp only [hidx]
  exact hget

theorem pyIndex_nil (i : Int) : pyIndex ([] : List α) i = .error .indexError := by
  simp only [pyIndex, List.length_nil, Nat.cast_zero]
  exact dif_neg (by split <;> omega)

theorem ebind_ok {eps alpha beta : Type} (a : alpha) (f : alpha → Except eps beta) :
    (Except.ok a >>= f) = f a := rfl

theorem ebind_err {eps alpha beta : Type} (e : eps) (f : alpha → Except eps beta) :
    ((Except.error e : Except eps alpha) >>= f) = .error e := rfl

theorem emap_ok {eps alpha beta : Type} (f : alpha → beta) (a : alpha) :
    Except.map f (Except.ok a : Except eps alpha) = .ok (f a) := rfl

theorem interpolate_single_ok {reg : Registry} {row : List Str}
    {expr s : Str} {m : PMatch} (hscan : scanExpr expr = [.mat m])
    (hrep : replace_match reg row expr m = .ok (.rstr s)) :
    interpolate reg expr row = .ok (pyStrip s) := by
  simp [interpolate, hscan, subPieces, hrep, joinRepls, ebind_ok, emap_ok]

theorem interpolate_single_err {reg : Registry} {row : List Str}
    {expr : Str} {m : PMatch} {e : Err} (hscan : scanExpr expr = [.mat m])
    (hrep : replace_match reg row expr m = .error e) :
    interpolate reg expr row = .error e := by
  simp [interpolate, hscan, subPieces, hrep, ebind_ok, ebind_err]

/-! ## Claims C2, C4, C5 -/

/-- C4 (counterexample): the claim demands an ExpressionError for every
`N < 1`, but `$0` with a non-empty row does not raise: the code indexes
`row[-1]`, which Python resolves to the last element. -/
theorem c4_counterexample :
    interpolate (fun _ => none) ['$', '0'] [['a'], ['b']] = .ok ['b'] := rfl

/-- C4 (amended): `$N` and `${N}` are replaced by `row[N-1]` (then the
whole-expression result is stripped) whenever `1 ≤ N ≤ len(row)`, and
interpolation raises an error when `N > len(row)`; however `N = 0` —
in both the `$0` and `${0}` forms — resolves to `row[-1]`, i.e. the
last element of a non-empty row, and raises only when the row is
empty. -/
theorem c4_column_placeholder (reg : Registry) (row : List Str) (N : Nat) :
    (∀ c, 1 ≤ N → row.get? (N - 1) = some c →
        interpolate reg ('$' :: natToStr N) row = .ok (pyStrip c) ∧
        interpolate reg ('$' :: '{' :: natToStr N ++ ['}']) row = .ok (pyStrip c)) ∧
    (row.length < N →
        interpolate reg ('$' :: natToStr N) row = .error .indexError ∧
        interpolate reg ('$' :: '{' :: natToStr N ++ ['}']) row = .error .indexError) ∧
    (N = 0 → ∀ c, row.getLast? = some c →
        interpolate reg ('$' :: natToStr N) row = .ok (pyStrip c) ∧
        interpolate reg ('$' :: '{' :: natToStr N ++ ['}']) row = .ok (pyStrip c)) ∧
    (N = 0 → row = [] →
        interpolate reg ('$' :: natToStr N) row = .error .indexError ∧
        interpolate reg ('$' :: '{' :: natToStr N ++ ['}']) row =
          .error .indexError) := by
  have hscan1 := scanExpr_dollarN (natToStr_ne_nil N) (natToStr_digits N)
  have hscan2 := scanExpr_braceN (natToStr_ne_nil N) (natToStr_digits N)
  refine ⟨?_, ?_, ?_, ?_⟩
  · intro c h1 hc
    have hidx : pyIndex row ((strToNat (natToStr N) : Int) - 1) = .ok c := by
      rw [strToNat_natToStr,
        show ((N : Int) - 1) = ((N - 1 : Nat) : Int) from by omega]
      exact pyIndex_get? hc
    exact ⟨interpolate_single_ok hscan1 (by simp [replace_match, hidx, ebind_ok, ebind_err]),
      interpolate_single_ok hscan2 (by simp [replace_match, hidx, ebind_ok, ebind_err])⟩
  · intro hN
    have hidx : pyIndex row ((strToNat (natToStr N) : Int) - 1) =
        .error .indexError := by
      rw [strToNat_natToStr]
      exact pyIndex_oob hN
    exact ⟨interpolate_single_err hscan1 (by simp [replace_match, hidx, ebind_ok, ebind_err]),
      interpolate_single_err hscan2 (by simp [replace_match, hidx, ebind_ok, ebind_err])⟩
  · intro hN c hc
    subst hN
    have hidx : pyIndex row ((strToNat (natToStr 0) : Int) - 1) = .ok c := by
      rw [strToNat_natToStr,
        show (((0 : Nat) : Int) - 1) = (-1 : Int) from by omega]
      exact pyIndex_neg_one hc
    exact ⟨interpolate_single_ok hscan1 (by simp [replace_match, hidx, ebind_ok, ebind_err]),
      interpolate_single_ok hscan2 (by simp [replace_match, hidx, ebind_ok, ebind_err])⟩
  · intro hN hrow
    subst hN; subst hrow
    have hidx : pyIndex ([] : List Str) ((strToNat (natToStr 0) : Int) - 1) =
        .error .indexError := pyIndex_nil _
    exact ⟨interpolate_single_err hscan1 (by simp [replace_match, hidx, ebind_ok, ebind_err]),
      interpolate_single_err hscan2 (by simp [replace_match, hidx, ebind_ok, ebind_err])⟩

/-- C4 (witness): column 2 of a two-element row through both `$2` and
`${2}`. -/
theorem c4_column_placeholder_witness :
    interpolate (fun _ => none) ('$' :: natToStr 2) [['a'], ['b']] =
      .ok (pyStrip ['b']) ∧
    interpolate (fun _ => none) ('$' :: '{' :: natToStr 2 ++ ['}']) [['a'], ['b']] =
      .ok (pyStrip ['b']) :=
  (c4_column_placeholder (fun _ => none) [['a'], ['b']] 2).1 ['b']
    (by omega) (by rfl)

/-- A registry with one function, `make`, returning a structured value. -/
def regStruct : Registry := fun n =>
  if n = "make".toList then
    some fun _ => .ok (.vcons "title".toList (.vstr ['T']) .vnil)
  else none

/-- C2: the spec requires a structured value returned by a function
placeholder that spans the whole expression to become the whole
interpolation result; the code instead hands the non-string object to
`re.sub`, which raises `TypeError` (a replacement must be a string), so
interpolation always fails in that situation. -/
theorem c2_structured_whole_expression_type_error :
    interpolate regStruct ("$\x7b1:make\x7d".toList) [['x']] =
      .error .typeError := rfl

/-- A registry with one function, `concat`, joining its arguments. -/
def regConcat : Registry := fun n =>
  if n = "concat".toList then some (fun args => .ok (.vstr args.flatten))
  else none

/-- C5: the placeholder regex admits only a single column index, so a
comma form `${1,2:concat}` is never matched: the registry function is
not invoked and the text passes through literally (first conjunct),
while the single-index form `${1:concat}` does invoke it (second
conjunct).  The comma-splitting code inside `replace_match` is
unreachable. -/
theorem c5_comma_placeholder_not_matched :
    interpolate regConcat ("$\x7b1,2:concat\x7d".toList) [['a'], ['b']] =
      .ok ("$\x7b1,2:concat\x7d".toList) ∧
    interpolate regConcat ("$\x7b1:concat\x7d".toList) [['a'], ['b']] =
      .ok ['a'] :=
  ⟨rfl, rfl⟩

/-! ## The DataCite tree builder (`set_datacite_value`, lines 99-157) -/

/-- An `xml.etree.ElementTree.Element`: qualified tag, attributes in
insertion order, optional text content, and direct child elements. -/
inductive Elem where
  | mk (tag : Str) (attrib : List (Str × Str)) (text : Option Str)
      (children : List Elem)

instance : Inhabited Elem := ⟨.mk [] [] none []⟩

def Elem.tag : Elem → Str
  | .mk t _ _ _ => t

def Elem.attrib : Elem → List (Str × Str)
  | .mk _ a _ _ => a

def Elem.text : Elem → Option Str
  | .mk _ _ x _ => x

def Elem.children : Elem → List Elem
  | .mk _ _ _ c => c

def Elem.setText (e : Elem) (s : Str) : Elem :=
  match e with
  | .mk t a _ c => .mk t a (some s) c

def Elem.setChildren (e : Elem) (cs : List Elem) : Elem :=
  match e with
  | .mk t a x _ => .mk t a x cs

/-- Python dict assignment `d[k] = v`: overwrite in place, else append. -/
def dictSet (m : List (Str × Str)) (k v : Str) : List (Str × Str) :=
  if m.any (fun p => p.1 = k) then
    m.map fun p => if p.1 = k then (k, v) else p
  else m ++ [(k, v)]

def Elem.setAttr (e : Elem) (k v : Str) : Elem :=
  match e with
  | .mk t a x c => .mk t (dictSet a k v) x c

/-- `q(tag)`: prefix the DataCite kernel-4 namespace. -/
def q (tag : Str) : Str :=
  "\x7bhttp://datacite.org/schema/kernel-4\x7d".toList ++ tag

/-- A freshly created `ET.SubElement`: tag only. -/
def newElem (tag : Str) : Elem := .mk tag [] none []

/-- The lazily created document root (lines 131-136): a `resource`
element with the schema-location attribute and a placeholder
`identifier` child. -/
def newRoot : Elem :=
  .mk (q "resource".toList)
    [("\x7bhttp://www.w3.org/2001/XMLSchema-instance\x7dschemaLocation".toList,
      ("http://datacite.org/schema/kernel-4 " ++
        "http://schema.datacite.org/meta/kernel-4/metadata.xsd").toList)]
    none
    [.mk (q "identifier".toList) [("identifierType".toList, "(:tba)".toList)]
      (some "(:tba)".toList) []]

/-- Python `str.split(sep)` on a single-character separator (always
returns at least one part). -/
def splitOnChar (sep : Char) : Str → List Str
  | [] => [[]]
  | c :: rest =>
    if c = sep then [] :: splitOnChar sep rest
    else
      match splitOnChar sep rest with
      | [] => [[c]]
      | p :: ps => (c :: p) :: ps

/-- `current_node.find(q(element))` (line 141), exposed as a splitter:
the children before the first tag match, the match, and the rest. -/
def findSplit (tg : Str) : List Elem → Option (List Elem × Elem × List Elem)
  | [] => none
  | c :: cs =>
    if c.tag = tg then some ([], c, cs)
    else (findSplit tg cs).map fun x => (c :: x.1, x.2.1, x.2.2)

/-- The walk of lines 138-145 combined with the final-segment action
`k` (lines 147-155): each non-`.` segment reuses the first direct
child carrying the qualified tag, otherwise creates and appends a new
child; `k` fires at the node the walk ends on.  The tree is rebuilt
functionally where Python mutates in place. -/
def navAssign (k : Elem → Except Err Elem) : List Str → Elem → Except Err Elem
  | [], e => k e
  | seg :: rest, e =>
    if seg = ['.'] then navAssign k rest e
    else
      match findSplit (q seg) e.children with
      | some (pre, c, post) =>
        (navAssign k rest c).map fun c2 => e.setChildren (pre ++ c2 :: post)
      | none =>
        (navAssign k rest (newElem (q seg))).map fun c2 =>
          e.setChildren (e.children ++ [c2])

/-- `\w` of the destination regexes (ASCII portion). -/
def isWordChar (c : Char) : Bool := c.isAlphanum || c = '_'

/-- One or more word characters, `\w+`. -/
def wordPlus (s : Str) : Bool := !s.isEmpty && s.all isWordChar

/-- Full match of `(\w+|[.])(/(\w+|[.]))*(@\w+)?` against the whole
string (the `$`-anchored `re.match` of line 119; `$` also accepts one
trailing newline, handled by the wrapper below). -/
def matchRelPathCore (s : Str) : Bool :=
  match splitOnChar '@' s with
  | [p] => (splitOnChar '/' p).all fun g => g = ['.'] || wordPlus g
  | [p, a] => ((splitOnChar '/' p).all fun g => g = ['.'] || wordPlus g) &&
      wordPlus a
  | _ => false

/-- `re.match(r'(\w+|[.])(/(\w+|[.]))*(@\w+)?$', s)`: in Python `$`
also matches just before a final newline. -/
def matchRelPath (s : Str) : Bool :=
  matchRelPathCore s ||
    (s.getLast?.elim false (· = '\n') && matchRelPathCore s.dropLast)

/-- The attribute suffix of a destination path: `parts[-1]` of
`path.split("@")` when the split yields more than one part
(lines 127-128). -/
def attrOf (path : Str) : Option Str :=
  let parts := splitOnChar '@' path
  if parts.length > 1 then some (parts.getLastD []) else none

/-- Split `node`/`root` handling (lines 127-145): split off the
attribute, split the remaining path on `/`, create the root lazily,
and run the walk with the final action `k`. -/
def navRoot (node : Option Elem) (path : Str) (k : Elem → Except Err Elem) :
    Except Err (Option Elem) :=
  let parts := splitOnChar '@' path
  let pathElements := splitOnChar '/' (parts.headD [])
  let root := match node with
    | none => newRoot
    | some r => r
  (navAssign k pathElements root).map some

/-- The two entry assertions on a list value (lines 117-119): every
element is a `(str, value)` tuple whose first component matches the
relative-path regex.  A chain ending in anything other than `vnil`
models a list element that is not a pair. -/
def chainPathsOk : PyVal → Bool
  | .vnil => true
  | .vcons r _ rest => matchRelPath r && chainPathsOk rest
  | _ => false

/-- `set_datacite_value(node, path, value)` (batch-register3.py lines
99-157).  A string value is stripped and, when empty, returns the node
unchanged before anything is created (lines 120-123); the root is
created lazily (lines 131-136); an attribute destination accepts only
a string value (lines 147-149).  The Python `for relpath, v in value`
loop over a structured value (lines 154-155) mutates `current_node` in
place; here it is modelled by assigning the head pair and re-running
the function on the tail with the same node and path: the walk reuses
the first tag match at every step, so it resolves to the same node the
Python loop keeps mutating, and the entry assertions, which the whole
chain already passed, hold again for the tail. -/
def set_datacite_value : Option Elem → Str → PyVal → Except Err (Option Elem)
  | node, path, .vstr s =>
    let s2 := pyStrip s
    if s2.isEmpty then .ok node
    else
      navRoot node path fun cur =>
        match attrOf path with
        | some a => .ok (cur.setAttr a s2)
        | none => .ok (cur.setText s2)
  | node, path, .vnil =>
    navRoot node path fun cur =>
      match attrOf path with
      | some _ => .error .assertionError
      | none => .ok cur
  | node, path, .vcons r v rest =>
    if chainPathsOk (.vcons r v rest) then
      match attrOf path with
      | some _ => navRoot node path fun _ => .error .assertionError
      | none => do
        let n1 ← navRoot node path fun cur =>
          (set_datacite_value (some cur) r v).map fun x => x.getD cur
        set_datacite_value n1 path rest
    else .error .assertionError
  | node, path, .vtup r v =>
    if matchRelPath r then
      match attrOf path with
      | some _ => navRoot node path fun _ => .error .assertionError
      | none =>
        navRoot node path fun cur =>
          (set_datacite_value (some cur) r v).map fun x => x.getD cur
    else .error .assertionError

/-! ## Lemmas about the tree builder -/

/-- Pure form of the walk for an action that cannot fail. -/
def navPure (f : Elem → Elem) : List Str → Elem → Elem
  | [], e => f e
  | seg :: rest, e =>
    if seg = ['.'] then navPure f rest e
    else
      match findSplit (q seg) e.children with
      | some (pre, c, post) => e.setChildren (pre ++ navPure f rest c :: post)
      | none => e.setChildren (e.children ++ [navPure f rest (newElem (q seg))])

theorem navAssign_ok (f : Elem → Elem) :
    ∀ (segs : List Str) (e : Elem),
      navAssign (fun x => .ok (f x)) segs e = .ok (navPure f segs e) := by
  intro segs
  induction segs with
  | nil => intro e; rfl
  | cons seg rest ih =>
    intro e
    by_cases hseg : seg = ['.']
    · simp only [navAssign, navPure, if_pos hseg, ih]
    · simp only [navAssign, navPure, if_neg hseg]
      cases hfs : findSplit (q seg) e.children with
      | none => simp [ih, emap_ok]
      | some x =>
        obtain ⟨pre, c, post⟩ := x
        simp [ih, emap_ok]

/-- First direct child by tag (the element `find` returns). -/
def findFirst (tg : Str) : List Elem → Option Elem
  | [] => none
  | c :: cs => if c.tag = tg then some c else findFirst tg cs

theorem findSplit_eq_none {tg : Str} {cs : List Elem} :
    findSplit tg cs = none ↔ ∀ c ∈ cs, c.tag ≠ tg := by
  induction cs with
  | nil => simp [findSplit]
  | cons c rest ih =>
    by_cases hc : c.tag = tg
    · simp [findSplit, hc]
    · simp [findSplit, hc, ih]

theorem findSplit_some {tg : Str} {cs pre post : List Elem} {c : Elem}
    (h : findSplit tg cs = some (pre, c, post)) :
    cs = pre ++ c :: post ∧ c.tag = tg ∧ ∀ x ∈ pre, x.tag ≠ tg := by
  induction cs generalizing pre with
  | nil => simp [findSplit] at h
  | cons d rest ih =>
    by_cases hd : d.tag = tg
    · rw [findSplit, if_pos hd] at h
      injection h with h
      injection h with h1 h
      injection h with h2 h3
      subst h1; subst h2; subst h3
      exact ⟨rfl, hd, by simp⟩
    · rw [findSplit, if_neg hd] at h
      cases hfs : findSplit tg rest with
      | none => rw [hfs] at h; simp at h
      | some x =>
        obtain ⟨pre2, c2, post2⟩ := x
        rw [hfs] at h
        simp only [Option.map] at h
        injection h with h
        injection h with h1 h
        injection h with h2 h3
        subst h1; subst h2; subst h3
        obtain ⟨ih1, ih2, ih3⟩ := ih hfs
        refine ⟨by rw [List.cons_append, ih1], ih2, ?_⟩
        intro x hx
        rcases List.mem_cons.mp hx with rfl | hx
        · exact hd
        · exact ih3 x hx

theorem findFirst_of_findSplit {tg : Str} {cs : List Elem} :
    findFirst tg cs = (findSplit tg cs).map (·.2.1) := by
  induction cs with
  | nil => rfl
  | cons c rest ih =>
    by_cases hc : c.tag = tg
    · simp [findFirst, findSplit, hc]
    · simp only [findFirst, findSplit, if_neg hc, ih]
      cases findSplit tg rest with
      | none => rfl
      | some x => rfl

theorem findFirst_append {tg : Str} {a b : List Elem} :
    findFirst tg (a ++ b) =
      match findFirst tg a with
      | some c => some c
      | none => findFirst tg b := by
  induction a with
  | nil => rfl
  | cons c rest ih =>
    by_cases hc : c.tag = tg
    · simp [findFirst, hc]
    · simp [findFirst, hc, ih]

theorem findFirst_none {tg : Str} {cs : List Elem}
    (h : ∀ c ∈ cs, c.tag ≠ tg) : findFirst tg cs = none := by
  rw [findFirst_of_findSplit, findSplit_eq_none.mpr h]
  rfl

theorem q_inj {a b : Str} (h : q a = q b) : a = b :=
  List.append_cancel_left h

theorem tag_setChildren (e : Elem) (cs : List Elem) :
    (e.setChildren cs).tag = e.tag := by
  cases e; rfl

theorem text_setChildren (e : Elem) (cs : List Elem) :
    (e.setChildren cs).text = e.text := by
  cases e; rfl

theorem children_setChildren (e : Elem) (cs : List Elem) :
    (e.setChildren cs).children = cs := by
  cases e; rfl

theorem tag_setText (e : Elem) (u : Str) : (e.setText u).tag = e.tag := by
  cases e; rfl

theorem children_setText (e : Elem) (u : Str) :
    (e.setText u).children = e.children := by
  cases e; rfl

theorem text_setText (e : Elem) (u : Str) : (e.setText u).text = some u := by
  cases e; rfl

theorem tag_navPure (u : Str) :
    ∀ (segs : List Str) (e : Elem),
      (navPure (Elem.setText · u) segs e).tag = e.tag := by
  intro segs
  induction segs with
  | nil => intro e; exact tag_setText e u
  | cons seg rest ih =>
    intro e
    by_cases hseg : seg = ['.']
    · simp only [navPure, if_pos hseg]; exact ih e
    · simp only [navPure, if_neg hseg]
      cases hfs : findSplit (q seg) e.children with
      | none => exact tag_setChildren _ _
      | some x =>
        obtain ⟨pre, c, post⟩ := x
        exact tag_setChildren _ _

theorem splitOnChar_not_mem {sep : Char} {s : Str} (h : sep ∉ s) :
    splitOnChar sep s = [s] := by
  induction s with
  | nil => rfl
  | cons c rest ih =>
    have hc : c ≠ sep := fun hc => h (by simp [hc])
    rw [splitOnChar, if_neg hc, ih (fun hm => h (by simp [hm]))]

/-- A non-empty (post-strip) string value routes to the pure walk that
sets the final node's text. -/
theorem set_str_nonempty {node : Option Elem} {path s : Str}
    (hat : '@' ∉ path) (hne : pyStrip s ≠ []) :
    set_datacite_value node path (.vstr s) =
      .ok (some (navPure (Elem.setText · (pyStrip s)) (splitOnChar '/' path)
        (node.getD newRoot))) := by
  have hparts : splitOnChar '@' path = [path] := splitOnChar_not_mem hat
  have hattr : attrOf path = none := by
    rw [attrOf, hparts]
    rfl
  rw [set_datacite_value]
  simp only [List.isEmpty_iff, if_neg hne, navRoot, hparts, hattr]
  rw [show (match node with | none => newRoot | some r => r) = node.getD newRoot
    from by cases node <;> rfl]
  rw [navAssign_ok (fun x => Elem.setText x (pyStrip s))]
  rfl

/-- A string value that trims to empty short-circuits before anything
is created. -/
theorem set_str_empty (node : Option Elem) (path : Str) {s : Str}
    (h : pyStrip s = []) :
    set_datacite_value node path (.vstr s) = .ok node := by
  rw [set_datacite_value]
  simp [h]

/-- C6: a string value that is empty after trimming is a complete
no-op: `set_datacite_value` returns the incoming node untouched before
any node is created, so with no prior root the document stays absent. -/
theorem c6_empty_value_noop (node : Option Elem) (path : Str) (s : Str)
    (h : pyStrip s = []) :
    set_datacite_value node path (.vstr s) = .ok node :=
  set_str_empty node path h

/-- C6 (witness): `assign(None, "/resource/titles/title", "")` leaves
the document absent. -/
theorem c6_empty_value_noop_witness :
    set_datacite_value none "/resource/titles/title".toList (.vstr []) =
      .ok none :=
  c6_empty_value_noop none "/resource/titles/title".toList [] (by rfl)

/-! ## Claim C3: repeated assignment to one path -/

/-- The nodes reached from `e` along a segment list, mirroring the
walk's matching: at every level all direct children whose tag is the
qualified segment (`.` stays at the current node). -/
def nodesAt (e : Elem) : List Str → List Elem
  | [] => [e]
  | seg :: rest =>
    if seg = ['.'] then nodesAt e rest
    else (e.children.filter fun c => c.tag = q seg).flatMap fun c =>
      nodesAt c rest

/-- Every node's direct children carry pairwise distinct tags.  This
holds for the auto-created root and is preserved by the walk, which
creates a child only when no child with that tag exists. -/
inductive TagsDistinct : Elem → Prop
  | intro (e : Elem) :
      e.children.Pairwise (fun a b => a.tag ≠ b.tag) →
      (∀ c ∈ e.children, TagsDistinct c) → TagsDistinct e

theorem tagsDistinct_children {e : Elem} (h : TagsDistinct e) :
    e.children.Pairwise (fun a b => a.tag ≠ b.tag) ∧
      ∀ c ∈ e.children, TagsDistinct c := by
  cases h with
  | intro _ h1 h2 => exact ⟨h1, h2⟩

theorem tagsDistinct_newElem (tg : Str) : TagsDistinct (newElem tg) :=
  .intro _ (by simp [newElem, Elem.children]) (by simp [newElem, Elem.children])

theorem tagsDistinct_newRoot : TagsDistinct newRoot := by
  refine .intro _ ?_ ?_
  · simp [newRoot, Elem.children]
  · intro c hc
    simp only [newRoot, Elem.children, List.mem_singleton] at hc
    subst hc
    exact .intro _ (by simp [Elem.children]) (by simp [Elem.children])

theorem tagsDistinct_navPure (u : Str) :
    ∀ (segs : List Str) (e : Elem), TagsDistinct e →
      TagsDistinct (navPure (Elem.setText · u) segs e) := by
  intro segs
  induction segs with
  | nil =>
    intro e he
    obtain ⟨h1, h2⟩ := tagsDistinct_children he
    simp only [navPure]
    refine .intro _ ?_ ?_
    · rw [children_setText]; exact h1
    · rw [children_setText]; exact h2
  | cons seg rest ih =>
    intro e he
    obtain ⟨h1, h2⟩ := tagsDistinct_children he
    by_cases hseg : seg = ['.']
    · simp only [navPure, if_pos hseg]; exact ih e he
    · simp only [navPure, if_neg hseg]
      cases hfs : findSplit (q seg) e.children with
      | none =>
        refine .intro _ ?_ ?_ <;> rw [children_setChildren]
        · rw [List.pairwise_append]
          refine ⟨h1, by simp, ?_⟩
          intro a ha b hb
          simp only [List.mem_singleton] at hb
          subst hb
          rw [tag_navPure, show (newElem (q seg)).tag = q seg from rfl]
          exact findSplit_eq_none.mp hfs a ha
        · intro c hc
          rcases List.mem_append.mp hc with hm | hm
          · exact h2 c hm
          · simp only [List.mem_singleton] at hm
            subst hm
            exact ih _ (tagsDistinct_newElem _)
      | some x =>
        obtain ⟨pre, c, post⟩ := x
        obtain ⟨hcs, hctag, hpre⟩ := findSplit_some hfs
        have htagnav : (navPure (Elem.setText · u) rest c).tag = c.tag :=
          tag_navPure u rest c
        refine .intro _ ?_ ?_ <;> rw [children_setChildren]
        · have := hcs ▸ h1
          rw [List.pairwise_append] at this ⊢
          obtain ⟨hp1, hp2, hp3⟩ := this
          refine ⟨hp1, ?_, ?_⟩
          · rw [List.pairwise_cons] at hp2 ⊢
            refine ⟨?_, hp2.2⟩
            intro b hb
            rw [htagnav]
            exact hp2.1 b hb
          · intro a ha b hb
            rcases List.mem_cons.mp hb with rfl | hm
            · rw [htagnav]
              exact hp3 a ha c (by simp)
            · exact hp3 a ha b (by simp [hm])
        · intro d hd
          have hcmem : c ∈ e.children := by rw [hcs]; simp
          rcases List.mem_append.mp hd with hm | hm
          · exact h2 d (by rw [hcs]; simp [hm])
          · rcases List.mem_cons.mp hm with rfl | hm2
            · exact ih c (h2 c hcmem)
            · exact h2 d (by rw [hcs]; simp [hm2])

/-- After a text assignment along `segs`, the walk's location holds
exactly one node, whose text is the assigned string. -/
theorem nodesAt_navPure_setText (u : Str) :
    ∀ (segs : List Str) (e : Elem), TagsDistinct e →
      ∃ tg at2 ch,
        nodesAt (navPure (Elem.setText · u) segs e) segs =
          [.mk tg at2 (some u) ch] := by
  intro segs
  induction segs with
  | nil =>
    intro e _
    cases e with
    | mk tg at2 tx ch => exact ⟨tg, at2, ch, rfl⟩
  | cons seg rest ih =>
    intro e he
    obtain ⟨h1, h2⟩ := tagsDistinct_children he
    by_cases hseg : seg = ['.']
    · simp only [navPure, nodesAt, if_pos hseg]
      exact ih e he
    · simp only [navPure, nodesAt, if_neg hseg]
      cases hfs : findSplit (q seg) e.children with
      | none =>
        rw [children_setChildren]
        have hfilter :
            ((e.children ++ [navPure (Elem.setText · u) rest (newElem (q seg))]).filter
              fun c => c.tag = q seg) =
            [navPure (Elem.setText · u) rest (newElem (q seg))] := by
          rw [List.filter_append]
          rw [List.filter_eq_nil_iff.mpr
            (fun a ha => by simpa using findSplit_eq_none.mp hfs a ha)]
          rw [List.nil_append]
          rw [List.filter_cons_of_pos (by simp [tag_navPure]; rfl)]
          rfl
        rw [hfilter]
        simpa using ih (newElem (q seg)) (tagsDistinct_newElem _)
      | some x =>
        obtain ⟨pre, c, post⟩ := x
        obtain ⟨hcs, hctag, hpre⟩ := findSplit_some hfs
        rw [children_setChildren]
        have hprene : ∀ a ∈ pre, ¬(a.tag = q seg) := fun a ha => hpre a ha
        have hpostne : ∀ a ∈ post, ¬(a.tag = q seg) := by
          intro a ha htag
          have := hcs ▸ h1
          rw [List.pairwise_append] at this
          have h3 : c.tag ≠ a.tag := (List.pairwise_cons.mp this.2.1).1 a ha
          exact h3 (hctag.trans htag.symm)
        have hfilter :
            ((pre ++ navPure (Elem.setText · u) rest c :: post).filter
              fun x => x.tag = q seg) =
            [navPure (Elem.setText · u) rest c] := by
          rw [List.filter_append]
          rw [List.filter_eq_nil_iff.mpr
            (fun a ha => by simpa using hprene a ha)]
          rw [List.nil_append]
          rw [List.filter_cons_of_pos (by simp [tag_navPure, hctag])]
          rw [List.filter_eq_nil_iff.mpr
            (fun a ha => by simpa using hpostne a ha)]
        rw [hfilter]
        have hcmem : c ∈ e.children := by rw [hcs]; simp
        simpa using ih c (h2 c hcmem)

/-- C3 (counterexample): with the non-empty strings `t = u = " "` the
claimed "exactly one node at p holding text u" does not exist: both
assignments are no-ops (the value trims to empty), so the document
stays entirely absent. -/
theorem c3_counterexample :
    ([' '] : Str) ≠ [] ∧
    (do
      let n1 ← set_datacite_value none "/resource/titles/title".toList
        (.vstr [' '])
      set_datacite_value n1 "/resource/titles/title".toList (.vstr [' '])) =
      .ok (none : Option Elem) :=
  ⟨by decide, rfl⟩

/-- C3 (amended): for every attribute-free path `p` and strings `t`,
`u` that are non-empty after trimming, assigning `t` to `p` and then
`u` to the same `p` yields a document with exactly one node at `p`,
and its text is the trimmed `u`: the walk searches direct children
only by tag name and reuses the first match instead of creating a
duplicate sibling. -/
theorem c3_repeated_assignment (p t u : Str) (hat : '@' ∉ p)
    (ht : pyStrip t ≠ []) (hu : pyStrip u ≠ []) :
    ∃ root : Elem,
      (do
        let n1 ← set_datacite_value none p (.vstr t)
        set_datacite_value n1 p (.vstr u)) = .ok (some root) ∧
      ∃ tg at2 ch,
        nodesAt root (splitOnChar '/' p) = [.mk tg at2 (some (pyStrip u)) ch] := by
  rw [set_str_nonempty hat ht]
  rw [show ((none : Option Elem).getD newRoot) = newRoot from rfl]
  rw [ebind_ok]
  rw [set_str_nonempty hat hu]
  have hd1 : TagsDistinct (navPure (Elem.setText · (pyStrip t))
      (splitOnChar '/' p) newRoot) :=
    tagsDistinct_navPure _ _ _ tagsDistinct_newRoot
  refine ⟨_, rfl, ?_⟩
  exact nodesAt_navPure_setText (pyStrip u) (splitOnChar '/' p) _ hd1

/-- C3 (witness): the amended claim at `p = "/resource/titles/title"`,
`t = "T"`, `u = "U"`. -/
theorem c3_repeated_assignment_witness :
    ∃ root : Elem,
      (do
        let n1 ← set_datacite_value none "/resource/titles/title".toList
          (.vstr "T".toList)
        set_datacite_value n1 "/resource/titles/title".toList
          (.vstr "U".toList)) = .ok (some root) ∧
      ∃ tg at2 ch,
        nodesAt root (splitOnChar '/' "/resource/titles/title".toList) =
          [.mk tg at2 (some (pyStrip "U".toList)) ch] :=
  c3_repeated_assignment "/resource/titles/title".toList "T".toList "U".toList
    (by decide) (by decide) (by decide)

/-! ## Claim C7: text or children, never both -/

/-- A node carries exactly one of text content and child nodes. -/
def nodeExactlyOne (e : Elem) : Prop :=
  (e.text ≠ none ∧ e.children = []) ∨ (e.text = none ∧ e.children ≠ [])

/-- `nodeExactlyOne` at every node of the tree. -/
inductive AllExactlyOne : Elem → Prop
  | intro (e : Elem) : nodeExactlyOne e →
      (∀ c ∈ e.children, AllExactlyOne c) → AllExactlyOne e

theorem allExactlyOne_parts {e : Elem} (h : AllExactlyOne e) :
    nodeExactlyOne e ∧ ∀ c ∈ e.children, AllExactlyOne c := by
  cases h with
  | intro _ h1 h2 => exact ⟨h1, h2⟩

/-- Assigning text along this dot-free segment list keeps the
exactly-one invariant: the realized part of the walk ends either on a
childless node (text may be overwritten) or, at its first miss, on a
textless node (a child may be appended). -/
def SafePath : List Str → Elem → Prop
  | [], e => e.children = []
  | seg :: rest, e =>
    match findFirst (q seg) e.children with
    | some c => SafePath rest c
    | none => e.text = none

/-- `a` is a strict leading segment sequence of `b`. -/
def properLead (a b : List Str) : Bool :=
  decide (a.length < b.length ∧ b.take a.length = a)

/-- Neither path is a strict leading sequence of the other. -/
def incompSegs (a b : List Str) : Bool :=
  !properLead a b && !properLead b a

/-- The `/`-segments of a path with `.` segments removed: the walk
treats them as "stay here". -/
def normSegs (p : Str) : List Str :=
  (splitOnChar '/' p).filter fun g => g ≠ ['.']

theorem properLead_nil {b : List Str} (h : b ≠ []) : properLead [] b = true := by
  cases b with
  | nil => exact absurd rfl h
  | cons x t => simp [properLead]

theorem incompSegs_left_nil {sq : List Str} (h : sq ≠ [])
    (hinc : incompSegs [] sq = true) : False := by
  rw [incompSegs, properLead_nil h] at hinc
  simp at hinc

theorem incompSegs_right_nil {sp : List Str} (h : sp ≠ [])
    (hinc : incompSegs sp [] = true) : False := by
  rw [incompSegs, properLead_nil h] at hinc
  simp at hinc

theorem incompSegs_cons {x : Str} {a b : List Str}
    (h : incompSegs (x :: a) (x :: b) = true) : incompSegs a b = true := by
  simp only [incompSegs, properLead, Bool.and_eq_true, Bool.not_eq_true',
    decide_eq_false_iff_not, not_and] at h ⊢
  obtain ⟨h1, h2⟩ := h
  constructor
  · intro hlen htake
    exact h1 (by simpa using hlen) (by simp [List.take_cons, htake])
  · intro hlen htake
    exact h2 (by simpa using hlen) (by simp [List.take_cons, htake])

theorem safePath_newElem (tg : Str) : ∀ sq : List Str, SafePath sq (newElem tg)
  | [] => rfl
  | _ :: _ => rfl

/-- Preservation of `SafePath` under a text assignment along a path
that is neither a strict lead of it nor strictly led by it. -/
theorem safePath_preserved (u : Str) :
    ∀ (sq sp : List Str) (e : Elem),
      incompSegs sp sq = true →
      (∀ g ∈ sp, g ≠ ['.']) →
      SafePath sq e → SafePath sq (navPure (Elem.setText · u) sp e) := by
  intro sq
  induction sq with
  | nil =>
    intro sp e hinc _ hsafe
    cases sp with
    | nil => simpa [navPure, SafePath, children_setText] using hsafe
    | cons s rp => exact absurd hinc (by intro h; exact incompSegs_right_nil (by simp) h)
  | cons t tq ih =>
    intro sp e hinc hdot hsafe
    cases sp with
    | nil => exact absurd hinc (by intro h; exact incompSegs_left_nil (by simp) h)
    | cons s rp =>
      have hs : s ≠ ['.'] := hdot s (by simp)
      simp only [navPure, if_neg hs]
      cases hfs : findSplit (q s) e.children with
      | some x =>
        obtain ⟨pre, c, post⟩ := x
        obtain ⟨hcs, hctag, hpre⟩ := findSplit_some hfs
        have hprenone : findFirst (q s) pre = none := findFirst_none hpre
        have hnavtag : (navPure (Elem.setText · u) rp c).tag = q s :=
          (tag_navPure u rp c).trans hctag
        show SafePath (t :: tq) _
        simp only [SafePath, children_setChildren]
        by_cases hts : t = s
        · subst hts
          rw [findFirst_append, hprenone]
          simp only [findFirst, hnavtag, if_pos rfl]
          have hsafec : SafePath tq c := by
            have := hsafe
            simp only [SafePath, hcs, findFirst_append, hprenone] at this
            simpa [findFirst, hctag] using this
          exact ih rp c (incompSegs_cons hinc) (fun g hg => hdot g (by simp [hg]))
            hsafec
        · have hsqt : ¬(q s = q t) := fun hq => hts (q_inj hq).symm
          have hold := hsafe
          simp only [SafePath, hcs, findFirst_append] at hold
          rw [findFirst_append]
          cases hp0 : findFirst (q t) pre with
          | some c0 =>
            rw [hp0] at hold
            exact hold
          | none =>
            rw [hp0] at hold
            simp only [findFirst, hctag, if_neg hsqt] at hold
            simp only [findFirst, hnavtag, if_neg hsqt]
            cases hpost : findFirst (q t) post with
            | some c0 =>
              rw [hpost] at hold
              exact hold
            | none =>
              rw [hpost] at hold
              rw [text_setChildren]
              exact hold
      | none =>
        have hnone : findFirst (q s) e.children = none :=
          findFirst_none (findSplit_eq_none.mp hfs)
        have hnavtag : (navPure (Elem.setText · u) rp (newElem (q s))).tag = q s :=
          tag_navPure u rp (newElem (q s))
        show SafePath (t :: tq) _
        simp only [SafePath, children_setChildren]
        by_cases hts : t = s
        · subst hts
          rw [findFirst_append, hnone]
          simp only [findFirst, hnavtag, if_pos rfl]
          exact ih rp (newElem (q t)) (incompSegs_cons hinc)
            (fun g hg => hdot g (by simp [hg])) (safePath_newElem _ tq)
        · have hsqt : ¬(q s = q t) := fun hq => hts (q_inj hq).symm
          rw [findFirst_append]
          have hold := hsafe
          simp only [SafePath] at hold
          cases hch : findFirst (q t) e.children with
          | some c0 =>
            rw [hch] at hold
            exact hold
          | none =>
            rw [hch] at hold
            simp only [findFirst, hnavtag, if_neg hsqt]
            rw [text_setChildren]
            exact hold

/-- A fresh chain created below a new element satisfies the invariant:
every created node holds exactly its next child, and the last the
text. -/
theorem allExactlyOne_chain (u : Str) :
    ∀ (rp : List Str) (tg : Str), (∀ g ∈ rp, g ≠ ['.']) →
      AllExactlyOne (navPure (Elem.setText · u) rp (newElem tg)) := by
  intro rp
  induction rp with
  | nil =>
    intro tg _
    simp only [navPure]
    refine .intro _ (Or.inl ⟨?_, ?_⟩) ?_
    · rw [text_setText]; simp
    · rw [children_setText]; rfl
    · rw [children_setText]
      intro c hc
      simp [newElem, Elem.children] at hc
  | cons s rp2 ih =>
    intro tg hdot
    have hs : s ≠ ['.'] := hdot s (by simp)
    simp only [navPure, if_neg hs]
    rw [show findSplit (q s) (newElem tg).children = none from rfl]
    refine .intro _ ?_ ?_
    · exact Or.inr ⟨by rw [text_setChildren]; rfl, by rw [children_setChildren]; simp⟩
    · rw [children_setChildren]
      intro c hc
      simp only [newElem, Elem.children, List.nil_append, List.mem_singleton] at hc
      subst hc
      exact ih (q s) (fun g hg => hdot g (by simp [hg]))

/-- A text assignment along a safe, dot-free path preserves the
exactly-one invariant at every node. -/
theorem allExactlyOne_navPure (u : Str) :
    ∀ (sp : List Str) (e : Elem), (∀ g ∈ sp, g ≠ ['.']) →
      AllExactlyOne e → SafePath sp e →
      AllExactlyOne (navPure (Elem.setText · u) sp e) := by
  intro sp
  induction sp with
  | nil =>
    intro e _ _ hsafe
    simp only [navPure]
    refine .intro _ (Or.inl ⟨by rw [text_setText]; simp, ?_⟩) ?_
    · rw [children_setText]; exact hsafe
    · rw [children_setText, hsafe]
      simp
  | cons s rp ih =>
    intro e hdot hall hsafe
    obtain ⟨hone, hsub⟩ := allExactlyOne_parts hall
    have hs : s ≠ ['.'] := hdot s (by simp)
    simp only [navPure, if_neg hs]
    cases hfs : findSplit (q s) e.children with
    | some x =>
      obtain ⟨pre, c, post⟩ := x
      obtain ⟨hcs, hctag, hpre⟩ := findSplit_some hfs
      have hprenone : findFirst (q s) pre = none := findFirst_none hpre
      have hene : e.children ≠ [] := by rw [hcs]; simp
      have htext : e.text = none := by
        rcases hone with ⟨_, hch⟩ | ⟨ht, _⟩
        · exact absurd hch hene
        · exact ht
      refine .intro _ (Or.inr ⟨by rw [text_setChildren]; exact htext, ?_⟩) ?_
      · rw [children_setChildren]; simp
      · rw [children_setChildren]
        intro d hd
        have hsafec : SafePath rp c := by
          have := hsafe
          simp only [SafePath, hcs, findFirst_append, hprenone] at this
          simpa [findFirst, hctag] using this
        rcases List.mem_append.mp hd with hm | hm
        · exact hsub d (by rw [hcs]; simp [hm])
        · rcases List.mem_cons.mp hm with rfl | hm2
          · exact ih c (fun g hg => hdot g (by simp [hg]))
              (hsub c (by rw [hcs]; simp)) hsafec
          · exact hsub d (by rw [hcs]; simp [hm2])
    | none =>
      have hnone : findFirst (q s) e.children = none :=
        findFirst_none (findSplit_eq_none.mp hfs)
      have htext : e.text = none := by
        have := hsafe
        simp only [SafePath, hnone] at this
        exact this
      refine .intro _ (Or.inr ⟨by rw [text_setChildren]; exact htext, ?_⟩) ?_
      · rw [children_setChildren]; simp
      · rw [children_setChildren]
        intro d hd
        rcases List.mem_append.mp hd with hm | hm
        · exact hsub d hm
        · simp only [List.mem_singleton] at hm
          subst hm
          exact allExactlyOne_chain u rp (q s) (fun g hg => hdot g (by simp [hg]))

/-- `.` segments are skipped by the walk, so filtering them out first
changes nothing. -/
theorem navPure_filter (f : Elem → Elem) :
    ∀ (segs : List Str) (e : Elem),
      navPure f segs e = navPure f (segs.filter fun g => g ≠ ['.']) e := by
  intro segs
  induction segs with
  | nil => intro e; rfl
  | cons seg rest ih =>
    intro e
    by_cases hseg : seg = ['.']
    · rw [List.filter_cons_of_neg (by simp [hseg])]
      simp only [navPure, if_pos hseg]
      exact ih e
    · rw [List.filter_cons_of_pos (by simp [hseg])]
      simp only [navPure, if_neg hseg]
      cases findSplit (q seg) e.children with
      | none =>
        exact congrArg (fun x => e.setChildren (e.children ++ [x]))
          (ih (newElem (q seg)))
      | some x =>
        obtain ⟨pre, c, post⟩ := x
        exact congrArg (fun y => e.setChildren (pre ++ y :: post)) (ih c)

theorem allExactlyOne_newRoot : AllExactlyOne newRoot := by
  refine .intro _ (Or.inr ⟨rfl, by simp [newRoot, Elem.children]⟩) ?_
  intro c hc
  simp only [newRoot, Elem.children, List.mem_singleton] at hc
  subst hc
  exact .intro _ (Or.inl ⟨by simp [Elem.text], rfl⟩) (by simp [Elem.children])

/-- An absolute path's first normalized segment is the empty string
produced by the leading slash, which never names a child of the fresh
root, so the root (textless) is always safe to extend. -/
theorem safePath_root {p : Str} (h : p.head? = some '/') :
    SafePath (normSegs p) newRoot := by
  cases p with
  | nil => simp at h
  | cons c rest =>
    have hc : c = '/' := by simpa using h
    subst hc
    rw [normSegs, splitOnChar, if_pos rfl,
      List.filter_cons_of_pos (by simp)]
    show SafePath ([] :: _) newRoot
    simp only [SafePath]
    rfl

/-- One document built from a sequence of string-valued assignments,
as `transform_data` accumulates `datacite_root` across its rules. -/
def runStrAssigns (asgs : List (Str × Str)) : Except Err (Option Elem) :=
  asgs.foldlM (fun st pv => set_datacite_value st pv.1 (.vstr pv.2)) none

theorem normSegs_dotfree (p : Str) : ∀ g ∈ normSegs p, g ≠ ['.'] := by
  intro g hg
  simpa using (List.mem_filter.mp hg).2

theorem c7_aux :
    ∀ (asgs : List (Str × Str)) (st : Option Elem),
      (∀ pv ∈ asgs, pv.1.head? = some '/' ∧ '@' ∉ pv.1) →
      asgs.Pairwise (fun a b => incompSegs (normSegs a.1) (normSegs b.1) = true) →
      (∀ r, st = some r → AllExactlyOne r ∧
        ∀ pv ∈ asgs, SafePath (normSegs pv.1) r) →
      ∀ root,
        asgs.foldlM (fun st2 pv => set_datacite_value st2 pv.1 (.vstr pv.2)) st =
          .ok (some root) →
        AllExactlyOne root := by
  intro asgs
  induction asgs with
  | nil =>
    intro st _ _ hinv root hrun
    simp only [List.foldlM_nil] at hrun
    have : st = some root := by
      injection hrun
    exact (hinv root this).1
  | cons pv rest ih =>
    intro st habs hpair hinv root hrun
    obtain ⟨hhead, hat⟩ := habs pv (by simp)
    rw [List.foldlM_cons] at hrun
    by_cases hv : pyStrip pv.2 = []
    · rw [set_str_empty _ _ hv, ebind_ok] at hrun
      exact ih st (fun x hx => habs x (by simp [hx])) hpair.of_cons
        (fun r hr => ⟨(hinv r hr).1, fun x hx => (hinv r hr).2 x (by simp [hx])⟩)
        root hrun
    · rw [set_str_nonempty hat hv, ebind_ok] at hrun
      rw [navPure_filter] at hrun
      have hbase : AllExactlyOne (st.getD newRoot) ∧
          ∀ x ∈ pv :: rest, SafePath (normSegs x.1) (st.getD newRoot) := by
        cases st with
        | none =>
          exact ⟨allExactlyOne_newRoot,
            fun x hx => safePath_root (habs x hx).1⟩
        | some r => exact hinv r rfl
      have hnew : AllExactlyOne (navPure (Elem.setText · (pyStrip pv.2))
          (normSegs pv.1) (st.getD newRoot)) :=
        allExactlyOne_navPure _ _ _ (normSegs_dotfree pv.1) hbase.1
          (hbase.2 pv (by simp))
      have hsafe2 : ∀ x ∈ rest, SafePath (normSegs x.1)
          (navPure (Elem.setText · (pyStrip pv.2)) (normSegs pv.1)
            (st.getD newRoot)) := by
        intro x hx
        exact safePath_preserved _ _ _ _
          (List.rel_of_pairwise_cons hpair hx) (normSegs_dotfree pv.1)
          (hbase.2 x (by simp [hx]))
      exact ih _ (fun x hx => habs x (by simp [hx])) hpair.of_cons
        (fun r hr => by
          rw [show r = navPure (Elem.setText · (pyStrip pv.2)) (normSegs pv.1)
            (st.getD newRoot) from by injection hr.symm]
          exact ⟨hnew, hsafe2⟩)
        root hrun

/-- Total direct-child access for stating concrete counterexamples. -/
def Elem.childD (e : Elem) (i : Nat) : Elem := e.children.getD i default

/-- C7 (counterexample): assigning text `"T"` to `/resource/titles`
and then `"U"` to `/resource/titles/title` leaves the `titles` node
with text content AND a child node: the second walk descends through
the text-bearing node and appends a child to it. -/
theorem c7_counterexample :
    ∃ root : Elem,
      (do
        let n1 ← set_datacite_value none "/resource/titles".toList
          (.vstr "T".toList)
        set_datacite_value n1 "/resource/titles/title".toList
          (.vstr "U".toList)) = .ok (some root) ∧
      (((root.childD 1).childD 0).childD 0).text = some "T".toList ∧
      (((root.childD 1).childD 0).childD 0).children ≠ [] := by
  refine ⟨_, rfl, rfl, ?_⟩
  exact List.cons_ne_nil _ _

/-- C7 (amended): after any sequence of string-valued tree-builder
assignments to attribute-free absolute paths in which no assigned
path's normalized segment sequence is a strict leading sequence of
another's, every node of the resulting document has either text
content or child nodes, never both. -/
theorem c7_text_xor_children (asgs : List (Str × Str))
    (habs : ∀ pv ∈ asgs, pv.1.head? = some '/' ∧ '@' ∉ pv.1)
    (hpair : asgs.Pairwise
      (fun a b => incompSegs (normSegs a.1) (normSegs b.1) = true))
    (root : Elem) (hrun : runStrAssigns asgs = .ok (some root)) :
    AllExactlyOne root :=
  c7_aux asgs none habs hpair (fun _ h => by cases h) root hrun

/-- The document of the C7 witness run. -/
def c7exAsgs : List (Str × Str) :=
  [("/resource/titles/title".toList, "T".toList),
   ("/resource/creators/creator".toList, "C".toList)]

/-- The root that witness run produces. -/
def c7exRoot : Elem :=
  match runStrAssigns c7exAsgs with
  | .ok (some r) => r
  | _ => default

/-- C7 (witness): the amended claim at a concrete two-assignment run
with prefix-incomparable paths. -/
theorem c7_text_xor_children_witness : AllExactlyOne c7exRoot :=
  c7_text_xor_children c7exAsgs (by decide) (by decide) c7exRoot rfl

/-! ## Mapping loading (`load_mappings`, batch-register3.py lines 11-33) -/

/-- A mapping rule `(destination, expression)`. -/
abbrev Rule := Str × Str

/-- Full match of `/resource(/\w+)+` (before an optional attribute). -/
def absSegsOk (p : Str) : Bool :=
  match splitOnChar '/' p with
  | [] :: r :: segs =>
    r = "resource".toList && !segs.isEmpty && segs.all wordPlus
  | _ => false

/-- Full match of `/resource(/\w+)+(@\w+)?` (the `re.match ... $` of
line 29; the destination is stripped first, so the `$`-newline case
cannot arise, but the wrapper mirrors it anyway). -/
def matchAbsPathCore (s : Str) : Bool :=
  match splitOnChar '@' s with
  | [p] => absSegsOk p
  | [p, a] => absSegsOk p && wordPlus a
  | _ => false

def matchAbsPath (s : Str) : Bool :=
  matchAbsPathCore s ||
    (s.getLast?.elim false (· = '\n') && matchAbsPathCore s.dropLast)

/-- Full match of `[\w.]+` (line 31). -/
def matchFlatCore (s : Str) : Bool :=
  !s.isEmpty && s.all fun c => isWordChar c || c = '.'

def matchFlat (s : Str) : Bool :=
  matchFlatCore s ||
    (s.getLast?.elim false (· = '\n') && matchFlatCore s.dropLast)

/-- One iteration of the `load_mappings` loop: strip the line, split on
every `=`, require exactly two parts, strip both, and validate the
destination against the syntax matching its first character. -/
def loadMappingLine (line : Str) : Except Err Rule :=
  let parts := splitOnChar '=' (pyStrip line)
  if parts.length = 2 then
    let destination := pyStrip (parts.headD [])
    let expression := pyStrip (parts.getLastD [])
    if destination.head? = some '/' then
      if matchAbsPath destination then .ok (destination, expression)
      else .error .assertionError
    else
      if matchFlat destination then .ok (destination, expression)
      else .error .assertionError
  else .error .assertionError

/-- `load_mappings` (lines 11-33) over the file's lines: all-or-nothing,
the first invalid line aborts the whole load. -/
def load_mappings : List Str → Except Err (List Rule)
  | [] => .ok []
  | line :: rest => do
    let r ← loadMappingLine line
    let rs ← load_mappings rest
    .ok (r :: rs)

theorem splitOnChar_length (sep : Char) :
    ∀ s : Str, (splitOnChar sep s).length = s.count sep + 1 := by
  intro s
  induction s with
  | nil => simp [splitOnChar]
  | cons c rest ih =>
    by_cases hc : c = sep
    · rw [splitOnChar, if_pos hc, List.length_cons, ih, hc]
      simp [List.count_cons]
    · rw [splitOnChar, if_neg hc]
      cases hsp : splitOnChar sep rest with
      | nil => rw [hsp] at ih; simp at ih
      | cons p ps =>
        rw [hsp] at ih
        simp only [List.length_cons] at ih ⊢
        rw [ih]
        simp [List.count_cons, hc]

/-- C8 (counterexample): the claim says a line whose expression
contains a further `=` still loads, split at the first `=`; the code
splits on every `=` and the three-part result fails the whole load. -/
theorem c8_counterexample :
    load_mappings ["title = a=b".toList] = .error .assertionError := rfl

/-- C8 (amended): loading splits every line on every `=`; any line
that does not yield exactly two parts (in particular a line whose
expression contains a further `=`) fails the whole load with a
ConfigError. -/
theorem c8_split_every_equals (lines : List Str) (l : Str)
    (hmem : l ∈ lines) (hcount : (pyStrip l).count '=' ≠ 1) :
    load_mappings lines = .error .assertionError := by
  induction lines with
  | nil => simp at hmem
  | cons line rest ih =>
    rcases List.mem_cons.mp hmem with rfl | hmem2
    · have hlen : (splitOnChar '=' (pyStrip l)).length ≠ 2 := by
        rw [splitOnChar_length]
        omega
      rw [load_mappings, loadMappingLine]
      rw [if_neg hlen]
      rfl
    · rw [load_mappings]
      cases hload : loadMappingLine line with
      | error e =>
        have herr : e = .assertionError := by
          simp only [loadMappingLine] at hload
          split at hload
          · split at hload
            · split at hload <;> simp_all
            · split at hload <;> simp_all
          · simp_all
        subst herr
        rw [ebind_err]
      | ok r =>
        rw [ebind_ok, ih hmem2, ebind_err]

/-- C8 (witness): the amended claim at a two-line input whose second
line has two `=` characters. -/
theorem c8_split_every_equals_witness :
    load_mappings ["title = $1".toList, "creator = a=b".toList] =
      .error .assertionError :=
  c8_split_every_equals ["title = $1".toList, "creator = a=b".toList]
    "creator = a=b".toList (by simp) (by decide)

/-! ## The transformation loop (`transform_data`, lines 159-196) -/

/-- The per-row state the loop accumulates: the flat metadata dict and
the shared document root. -/
structure RowState where
  metadata : List (Str × Str)
  root : Option Elem

/-- How the loop's failure surfaces: an `AssertionError` is caught at
line 183 and re-raised carrying the rule's 1-based position (line 184);
any other exception (IndexError, TypeError) propagates uncaught, with
no rule attribution. -/
inductive LoopErr where
  | attributed (pos : Nat) (e : Err)
  | raw (e : Err)
  deriving DecidableEq, Repr

def isAssertion : Err → Bool
  | .assertionError => true
  | _ => false

/-- `list.index`: the 0-based position of the first occurrence, as
`mappings.index((destination, expression))` computes it at line 184. -/
def ruleIndex : List Rule → Rule → Nat
  | [], _ => 0
  | x :: rest, r => if x = r then 0 else ruleIndex rest r + 1

/-- One iteration of the rule loop (lines 175-182): interpolate, then
route by destination kind.  `interpolate` can only produce a Python
`str` (see C2), so the `isinstance` assertion of line 181 never
fires and the flat branch stores the string, last write wins; the path
branch feeds the shared document. -/
def transformStep (reg : Registry) (row : List Str) (st : RowState)
    (rule : Rule) : Except Err RowState := do
  let v ← interpolate reg rule.2 row
  if rule.1.head? = some '/' then
    let r ← set_datacite_value st.root rule.1 (.vstr v)
    .ok ⟨st.metadata, r⟩
  else
    .ok ⟨dictSet st.metadata rule.1 v, st.root⟩

/-- The loop of lines 175-184 with its exception handler. -/
def transformLoop (reg : Registry) (full : List Rule) (row : List Str) :
    List Rule → RowState → Except LoopErr RowState
  | [], st => .ok st
  | r :: rest, st =>
    match transformStep reg row st r with
    | .ok st2 => transformLoop reg full row rest st2
    | .error e =>
      if isAssertion e then .error (.attributed (ruleIndex full r + 1) e)
      else .error (.raw e)

/-- The rule loop of `transform_data` (lines 172-184).  The
finalization of lines 186-194 (identifier-type patching and document
serialization) happens after the loop and is outside the claims about
error attribution. -/
def transform_data (reg : Registry) (mappings : List Rule)
    (row : List Str) : Except LoopErr RowState :=
  transformLoop reg mappings row mappings ⟨[], none⟩

/-- A string value never makes `set_datacite_value` fail: the walk
itself has no assertions and both final actions (text, attribute)
accept a string. -/
theorem set_str_total (node : Option Elem) (path s : Str) :
    ∃ r, set_datacite_value node path (.vstr s) = .ok r := by
  by_cases h : pyStrip s = []
  · exact ⟨node, set_str_empty node path h⟩
  · rw [set_datacite_value]
    simp only [List.isEmpty_iff, if_neg h, navRoot]
    cases hattr : attrOf path with
    | some a =>
      simp only [hattr]
      rw [navAssign_ok (fun cur => cur.setAttr a (pyStrip s))]
      exact ⟨_, rfl⟩
    | none =>
      simp only [hattr]
      rw [navAssign_ok (fun cur => cur.setText (pyStrip s))]
      exact ⟨_, rfl⟩

/-- A loop step fails exactly when its interpolation fails, with the
same exception. -/
theorem transformStep_error_iff {reg : Registry} {row : List Str}
    {st : RowState} {rule : Rule} {e : Err} :
    transformStep reg row st rule = .error e ↔
      interpolate reg rule.2 row = .error e := by
  rw [transformStep]
  cases hint : interpolate reg rule.2 row with
  | error e2 =>
    rw [ebind_err]
    constructor
    · intro h; injection h with h; rw [h]
    · intro h; injection h with h; rw [h]
  | ok v =>
    rw [ebind_ok]
    constructor
    · intro h
      by_cases hp : rule.1.head? = some '/'
      · rw [if_pos hp] at h
        obtain ⟨r, hr⟩ := set_str_total st.root rule.1 v
        rw [hr, ebind_ok] at h
        exact absurd h (by simp)
      · rw [if_neg hp] at h
        exact absurd h (by simp)
    · intro h
      exact absurd h (by simp)

theorem ruleIndex_append {pre rest : List Rule} {r : Rule}
    (h : ∀ x ∈ pre, x ≠ r) : ruleIndex (pre ++ r :: rest) r = pre.length := by
  induction pre with
  | nil => simp [ruleIndex]
  | cons x t ih =>
    rw [List.cons_append, ruleIndex, if_neg (h x (by simp)),
      ih fun y hy => h y (by simp [hy])]
    rfl

theorem get_append_mid {alpha : Type} (pre : List alpha) (x : alpha)
    (rest : List alpha) (h : pre.length < (pre ++ x :: rest).length) :
    (pre ++ x :: rest).get ⟨pre.length, h⟩ = x := by
  induction pre with
  | nil => rfl
  | cons a t ih =>
    show (t ++ x :: rest).get ⟨t.length, _⟩ = x
    exact ih _

theorem get_append_left_mem {alpha : Type} (pre suf : List alpha) (i : Nat)
    (hi : i < pre.length) (h : i < (pre ++ suf).length) :
    (pre ++ suf).get ⟨i, h⟩ ∈ pre := by
  induction pre generalizing i with
  | nil => simp at hi
  | cons a t ih =>
    cases i with
    | zero =>
      show a ∈ a :: t
      simp
    | succ n =>
      show (t ++ suf).get ⟨n, _⟩ ∈ a :: t
      exact List.mem_cons_of_mem a (ih n (by simpa using hi) _)

theorem transformLoop_attributed {reg : Registry} {row : List Str}
    {full : List Rule} {pos : Nat} {e : Err} :
    ∀ (pre suf : List Rule) (st : RowState),
      full = pre ++ suf →
      (∀ x ∈ pre, ∀ e2, interpolate reg x.2 row ≠ .error e2) →
      transformLoop reg full row suf st = .error (.attributed pos e) →
      isAssertion e = true ∧
      ∃ j, ∃ hj : j < full.length, pos = j + 1 ∧
        interpolate reg (full.get ⟨j, hj⟩).2 row = .error e ∧
        ∀ i (hi : i < j), ∀ e2,
          interpolate reg (full.get ⟨i, by omega⟩).2 row ≠ .error e2 := by
  intro pre suf
  induction suf generalizing pre with
  | nil =>
    intro st _ _ hrun
    rw [transformLoop] at hrun
    exact absurd hrun (by simp)
  | cons r rest ih =>
    intro st hfull hpre hrun
    rw [transformLoop] at hrun
    cases hstep : transformStep reg row st r with
    | ok st2 =>
      rw [hstep] at hrun
      dsimp only at hrun
      refine ih (pre ++ [r]) st2 (by rw [hfull, List.append_assoc]; rfl) ?_ hrun
      intro x hx e2
      rcases List.mem_append.mp hx with hm | hm
      · exact hpre x hm e2
      · simp only [List.mem_singleton] at hm
        subst hm
        intro hbad
        rw [← @transformStep_error_iff reg row st x e2] at hbad
        rw [hstep] at hbad
        exact absurd hbad (by simp)
    | error e0 =>
      rw [hstep] at hrun
      dsimp only at hrun
      by_cases hassert : isAssertion e0 = true
      · rw [if_pos hassert] at hrun
        injection hrun with hrun
        injection hrun with h1 h2
        subst h2
        subst hfull
        have hne : ∀ x ∈ pre, x ≠ r := by
          intro x hx hxr
          have hfail := transformStep_error_iff.mp hstep
          exact hpre x hx e0 (by rw [hxr]; exact hfail)
        refine ⟨hassert, pre.length,
          by simp only [List.length_append, List.length_cons]; omega, ?_, ?_, ?_⟩
        · rw [← h1, ruleIndex_append hne]
        · rw [get_append_mid]
          exact transformStep_error_iff.mp hstep
        · intro i hi e2
          exact hpre _ (get_append_left_mem pre (r :: rest) i hi _) e2
      · rw [if_neg hassert] at hrun
        exact absurd hrun (by simp)

/-- C9 (counterexample): a rule whose interpolation raises an
IndexError (here `$5` against a one-column row) aborts the run with a
bare, unattributed exception: the handler at line 183 only catches
`AssertionError`, so the claim's "attributed to that rule's 1-based
position" fails for this failing rule. -/
theorem c9_counterexample :
    transform_data (fun _ => none) [("title".toList, "$5".toList)] [['a']] =
      .error (.raw .indexError) := rfl

/-- C9 (amended): whenever the loop reports a position-attributed
error, the error is an assertion failure, the reported position is
`j + 1` where rule `j` (0-based) is the first failing rule, and all
earlier rules interpolated successfully; the first-occurrence
`list.index` lookup cannot misattribute because a duplicate of a
succeeded rule cannot fail (interpolation is a pure function of
expression and row).  Non-assertion exceptions propagate without any
rule attribution (see the counterexample). -/
theorem c9_error_attribution (reg : Registry) (ms : List Rule)
    (row : List Str) (pos : Nat) (e : Err)
    (h : transform_data reg ms row = .error (.attributed pos e)) :
    isAssertion e = true ∧
    ∃ j, ∃ hj : j < ms.length, pos = j + 1 ∧
      interpolate reg (ms.get ⟨j, hj⟩).2 row = .error e ∧
      ∀ i (hi : i < j), ∀ e2,
        interpolate reg (ms.get ⟨i, by omega⟩).2 row ≠ .error e2 :=
  transformLoop_attributed [] ms ⟨[], none⟩ rfl (by simp) h

/-- A registry with one function, `boom`, that raises. -/
def regBoom : Registry := fun n =>
  if n = "boom".toList then some (fun _ => .error ()) else none

/-- C9 (witness): a failing user function, caught as an assertion
failure and attributed to rule 1. -/
theorem c9_error_attribution_witness :
    isAssertion .assertionError = true ∧
    ∃ j, ∃ hj : j < ([(("title".toList : Str), "$\x7b1:boom\x7d".toList)] :
        List Rule).length, (1 : Nat) = j + 1 ∧
      interpolate regBoom
        (([(("title".toList : Str), "$\x7b1:boom\x7d".toList)] :
          List Rule).get ⟨j, hj⟩).2 [['a']] = .error .assertionError ∧
      ∀ i (hi : i < j), ∀ e2,
        interpolate regBoom
          (([(("title".toList : Str), "$\x7b1:boom\x7d".toList)] :
            List Rule).get ⟨i, by omega⟩).2 [['a']] ≠ .error e2 :=
  c9_error_attribution regBoom
    [("title".toList, "$\x7b1:boom\x7d".toList)] [['a']] 1 .assertionError rfl

/-! ## Output column resolution (`parse_output_columns`, lines 35-58) -/

/-- An output selector: a reserved or element name, or a 0-based input
column index (the code stores `column_index - 1`). -/
inductive Sel where
  | name (s : Str)
  | colIdx (i : Nat)
  deriving DecidableEq, Repr

/-- Python `str.isnumeric()` (ASCII digits). -/
def isNumericStr (s : Str) : Bool := !s.isEmpty && s.all Char.isDigit

/-- One iteration of the `parse_output_columns` loop (lines 49-57). -/
def outColumnStep (mappings : List Rule) (elements : List Str)
    (acc : List Sel) (column : Str) : Except Err (List Sel) :=
  if column = "_n".toList ∨ column = "_id".toList ∨ column = "_error".toList
  then .ok (acc ++ [.name column])
  else if isNumericStr column then
    if 1 ≤ strToNat column ∧ strToNat column ≤ mappings.length then
      .ok (acc ++ [.colIdx (strToNat column - 1)])
    else .error .assertionError
  else if column ∈ elements then .ok (acc ++ [.name column])
  else .error .assertionError

/-- `parse_output_columns(columns, mappings)` (lines 35-58): start
from the three reserved selectors and append one selector per
comma-separated token. -/
def parse_output_columns (columns : Str) (mappings : List Rule) :
    Except Err (List Sel) :=
  let elements := (mappings.map (·.1)).filter fun d => d.head? ≠ some '/'
  (splitOnChar ',' columns).foldlM (outColumnStep mappings elements)
    [.name "_n".toList, .name "_id".toList, .name "_error".toList]

theorem outColumnStep_append {mappings : List Rule} {elements : List Str}
    {acc acc2 : List Sel} {column : Str}
    (h : outColumnStep mappings elements acc column = .ok acc2) :
    ∃ x, acc2 = acc ++ [x] := by
  rw [outColumnStep] at h
  split at h
  · injection h with h
    exact ⟨_, h.symm⟩
  · split at h
    · split at h
      · injection h with h
        exact ⟨_, h.symm⟩
      · simp at h
    · split at h
      · injection h with h
        exact ⟨_, h.symm⟩
      · simp at h

theorem foldl_outColumn_lead {mappings : List Rule} {elements : List Str} :
    ∀ (toks : List Str) (acc r : List Sel),
      toks.foldlM (outColumnStep mappings elements) acc = .ok r →
      ∃ rest, r = acc ++ rest := by
  intro toks
  induction toks with
  | nil =>
    intro acc r h
    simp only [List.foldlM_nil] at h
    injection h with h
    exact ⟨[], by simp [h]⟩
  | cons t rest ih =>
    intro acc r h
    rw [List.foldlM_cons] at h
    cases hstep : outColumnStep mappings elements acc t with
    | error e =>
      rw [hstep, ebind_err] at h
      exact absurd h (by simp)
    | ok acc2 =>
      rw [hstep, ebind_ok] at h
      obtain ⟨x, hx⟩ := outColumnStep_append hstep
      obtain ⟨r2, hr2⟩ := ih acc2 r h
      exact ⟨[x] ++ r2, by rw [hr2, hx, List.append_assoc]⟩

/-- C10: every successful resolution yields a selector list beginning
with the three reserved selectors `_n`, `_id`, `_error`, prepended
before any selectors from the requested tokens (first conjunct); with
the default specification `_n,_id,_error` the three reserved selectors
therefore appear twice (second conjunct). -/
theorem c10_reserved_selectors_lead :
    (∀ (columns : Str) (mappings : List Rule) (r : List Sel),
        parse_output_columns columns mappings = .ok r →
        ∃ rest, r = [.name "_n".toList, .name "_id".toList,
          .name "_error".toList] ++ rest) ∧
    (∀ mappings : List Rule,
        parse_output_columns "_n,_id,_error".toList mappings =
          .ok [.name "_n".toList, .name "_id".toList, .name "_error".toList,
            .name "_n".toList, .name "_id".toList, .name "_error".toList]) := by
  constructor
  · intro columns mappings r h
    exact foldl_outColumn_lead _ _ r h
  · intro mappings
    rfl

/-- C10 (witness): the first conjunct applied to the default
specification and an empty mapping list. -/
theorem c10_reserved_selectors_lead_witness :
    ∃ rest, [Sel.name "_n".toList, .name "_id".toList, .name "_error".toList,
        .name "_n".toList, .name "_id".toList, .name "_error".toList] =
      [Sel.name "_n".toList, .name "_id".toList, .name "_error".toList] ++
        rest :=
  c10_reserved_selectors_lead.1 "_n,_id,_error".toList [] _
    (c10_reserved_selectors_lead.2 [])

end EzidTools
